import Mathlib

/-!
# Verification of a Go permutation library

This file gives a shallow embedding, in Lean 4, of the operations of a small Go
library for generating and ranking permutations, together with proofs and
refutations of a list of specification claims about those operations.

Source functions embedded (Go names kept):
* `LexNext`, `LexNextInt` — in-place next permutation in lexicographic order;
* `LexNextSort`           — the same algorithm over an abstract compare/swap capability;
* `sjtr`, `SJTRecursive`  — recursive Steinhaus-Johnson-Trotter generator;
* `SJTE`                  — iterative SJT generator with Even's speedup;
* `log2`, `LexRank`, `LexPerm` — lexicographic rank / unrank codec;
* `NewFact`               — factoradic conversion (modelled from the spec; its
  source file is not part of the repository snapshot).

Go slices are modelled as `List Int` (or `List Nat` where entries are used as
array indices); in-place mutation becomes explicit state passing.  Where a Go
runtime panic (out-of-range index) is reachable, the embedding is
`Option`-valued and a panic is `none`.  Counted Go `for` loops are translated
as structural recursion on the (explicitly supplied) number of remaining
iterations, so that every definition evaluates by kernel reduction.
-/

namespace PermGo

/-- Go `p[i], p[j] = p[j], p[i]`: exchange the entries at positions `i` and `j`. -/
def swapPos (p : List Int) (i j : Nat) : List Int :=
  (p.set i (p.getD j 0)).set j (p.getD i 0)

/-- The scan `k := last - 1; for ; p[k] >= p[k+1]; k-- { if k == 0 { return false } }`
of `LexNext`/`LexNextInt`: rightmost `k` (at most the start index) with
`p[k] < p[k+1]`, or `none` when the scan hits `k = 0` and fails. -/
def lexFindK (p : List Int) : Nat → Option Nat
  | 0 => if p.getD 0 0 ≥ p.getD 1 0 then none else some 0
  | k + 1 => if p.getD (k + 1) 0 ≥ p.getD (k + 2) 0 then lexFindK p k else some (k + 1)

/-- The scan `l := last; for ; p[k] >= p[l]; l-- {}`: rightmost `l` below the
start index with `p[k] < p[l]`.  The Go loop relies on such an `l` existing
(guaranteed by `p[k] < p[k+1]`); the recursion bottoms out at `0` otherwise. -/
def lexFindL (p : List Int) (pk : Int) : Nat → Nat
  | 0 => 0
  | l + 1 => if pk ≥ p.getD (l + 1) 0 then lexFindL p pk l else l + 1

/-- The loop `for l, r := k+1, last; l < r; l, r = l+1, r-1 { p[l], p[r] = p[r], p[l] }`,
with an explicit iteration budget (`r - l` at the call site is always enough,
since each pass increases `l` and decreases `r`). -/
def revLoop : Nat → List Int → Nat → Nat → List Int
  | 0, p, _, _ => p
  | fuel + 1, p, l, r => if l < r then revLoop fuel (swapPos p l r) (l + 1) (r - 1) else p

/-- Go `LexNext` (file `perm.go`): reorder `p` to the lexicographically next
(multiset) permutation; the `Bool` is the function's return value and the list
is the final contents of the slice. -/
def LexNext (p : List Int) : Bool × List Int :=
  if p.length ≤ 1 then (false, p)
  else
    -- Go binds `last := len(p) - 1` and `l`; they are inlined here
    match lexFindK p (p.length - 1 - 1) with
    | none => (false, p)
    | some k =>
      (true, revLoop (p.length - 1 - (k + 1))
        (swapPos p k (lexFindL p (p.getD k 0) (p.length - 1))) (k + 1) (p.length - 1))

/-- Go `LexNextInt` (second source file): textually the same algorithm as `LexNext`. -/
def LexNextInt (p : List Int) : Bool × List Int :=
  if p.length ≤ 1 then (false, p)
  else
    -- Go binds `last := len(p) - 1` and `l`; they are inlined here
    match lexFindK p (p.length - 1 - 1) with
    | none => (false, p)
    | some k =>
      (true, revLoop (p.length - 1 - (k + 1))
        (swapPos p k (lexFindL p (p.getD k 0) (p.length - 1))) (k + 1) (p.length - 1))

/-- `p` is in non-increasing order (the lexicographically maximal arrangement
of its multiset of values). -/
abbrev NonIncr (p : List Int) : Prop := List.Sorted (· ≥ ·) p

/-- `p` is in non-decreasing order (the lexicographically minimal arrangement
of its multiset of values). -/
abbrev NonDecr (p : List Int) : Prop := List.Sorted (· ≤ ·) p

/-- Strict lexicographic order on integer slices, index 0 most significant. -/
abbrev LexLt (p q : List Int) : Prop := List.Lex (· < ·) p q

/-- `q` is the lexicographically next arrangement after `p` of the multiset of
values of `p`: a rearrangement, strictly greater, and minimal among the
strictly greater rearrangements. -/
def IsLexSucc (p q : List Int) : Prop :=
  q.Perm p ∧ LexLt p q ∧ ∀ r : List Int, r.Perm p → LexLt p r → r = q ∨ LexLt q r

/-- The arrangements visited by calling `LexNextInt` repeatedly, starting from
`s` (inclusive), until it reports no further permutation; `fuel` bounds the
number of calls (any `fuel` at least the number of strictly greater
arrangements is enough for the run to finish on its own). -/
def lexChain : Nat → List Int → List (List Int)
  | 0, s => [s]
  | fuel + 1, s =>
    if (LexNextInt s).1 then s :: lexChain fuel (LexNextInt s).2 else [s]

/-- `n! / ∏ (multiplicity!)`: the claimed number of distinct arrangements of
the multiset of values of `p`. -/
def arrangeCount (p : List Int) : Nat :=
  Nat.factorial p.length / ∏ v ∈ p.toFinset, Nat.factorial (p.count v)

/-- The distinct arrangements of the multiset of values of `p₀` that are
lexicographically at least `s`. -/
def aboveSet (p₀ s : List Int) : Finset (List Int) :=
  p₀.permutations.toFinset.filter (fun q => s = q ∨ LexLt s q)

/-- The abstract sequence capability consumed by `LexNextSort` — Go's
`sort.Interface`: a length, a positional comparison `Less`, and a positional
`Swap`, over an arbitrary state type `σ`. -/
structure SortIface (σ : Type) where
  len : σ → Nat
  less : σ → Nat → Nat → Bool
  swap : σ → Nat → Nat → σ

/-- The pivot scan of `LexNextSort`: `for ; !p.Less(k, k+1); k-- { ... }`. -/
def sortFindK {σ : Type} (c : SortIface σ) (s : σ) : Nat → Option Nat
  | 0 => if !(c.less s 0 1) then none else some 0
  | k + 1 => if !(c.less s (k + 1) (k + 2)) then sortFindK c s k else some (k + 1)

/-- The successor scan of `LexNextSort`: `for ; !p.Less(k, l); l-- {}`. -/
def sortFindL {σ : Type} (c : SortIface σ) (s : σ) (k : Nat) : Nat → Nat
  | 0 => 0
  | l + 1 => if !(c.less s k (l + 1)) then sortFindL c s k l else l + 1

/-- The suffix-reversal loop of `LexNextSort`, performed through `Swap`. -/
def sortRevLoop {σ : Type} (c : SortIface σ) : Nat → σ → Nat → Nat → σ
  | 0, s, _, _ => s
  | fuel + 1, s, l, r =>
    if l < r then sortRevLoop c fuel (c.swap s l r) (l + 1) (r - 1) else s

/-- Go `LexNextSort`: the next-permutation algorithm expressed purely through
the `sort.Interface` capability. -/
def LexNextSort {σ : Type} (c : SortIface σ) (s : σ) : Bool × σ :=
  if c.len s ≤ 1 then (false, s)
  else
    match sortFindK c s (c.len s - 1 - 1) with
    | none => (false, s)
    | some k =>
      (true, sortRevLoop c (c.len s - 1 - (k + 1))
        (c.swap s k (sortFindL c s k (c.len s - 1))) (k + 1) (c.len s - 1))

/-- Go `sort.IntSlice`: the capability instance for a raw int slice, comparing
values with `<` and swapping in place. -/
def intSlice : SortIface (List Int) where
  len s := s.length
  less s i j := decide (s.getD i 0 < s.getD j 0)
  swap s i j := swapPos s i j

/-! #### Rank/unrank codec (`log2`, `ZPerm.LexRank`, `NewFact`, `LexPerm`)

`*big.Int` ranks are modelled as `Int`; the Go `int` entries of the counting
tree `t` and of slices are also `Int`.  Every slice access is bounds-checked:
`none` models a Go index-out-of-range panic. -/

/-- `ZPerm`: a permutation of `{0,…,n-1}` as an int slice. -/
abbrev ZPerm := List Int

/-- Bounds-checked read `l[i]` of a Go int slice (`none` = index panic). -/
def getI (l : List Int) (i : Int) : Option Int :=
  if 0 ≤ i ∧ i.toNat < l.length then some (l.getD i.toNat 0) else none

/-- Bounds-checked write `l[i] = v` (`none` = index panic). -/
def setI (l : List Int) (i : Int) (v : Int) : Option (List Int) :=
  if 0 ≤ i ∧ i.toNat < l.length then some (l.set i.toNat v) else none

/-- Bit counter for `log2`: the Go loop shifts `x` right until zero, counting
steps (the byte-sized fast path shifts by 8, an equivalent optimization).  The
first argument is the iteration budget; the value itself is always enough. -/
def bitLen : Nat → Nat → Nat
  | 0, _ => 0
  | _ + 1, 0 => 0
  | fuel + 1, m + 1 => bitLen fuel ((m + 1) / 2) + 1

/-- Go `log2`: `⌈log₂ x⌉` for `x > 0`, computed as the bit length of `x - 1`
(and `0` for `x = 0`, as the signed Go loop produces). -/
def log2 (x : Nat) : Nat := bitLen (x - 1) (x - 1)

/-- The inner loop of `LexRank`: walk `k` levels up from leaf `nd`, subtracting
the left-sibling count when `nd` is odd (`nd &^ 1 = nd - 1` there) and
incrementing the visited counts. -/
def lexRankScan : Nat → List Int → Int → Int → Option (List Int × Int × Int)
  | 0, t, nd, c => some (t, nd, c)
  | j + 1, t, nd, c => do
    let c' ← if nd % 2 = 1 then do
        let s ← getI t (nd - 1)
        pure (c - s)
      else pure c
    let cur ← getI t nd
    let t' ← setI t nd (cur + 1)
    lexRankScan j t' (nd / 2) c'

/-- The outer loop of `LexRank` over the entries of `p`, accumulating
`r = r·(n-i) + c` with the adjusted count `c`. -/
def lexRankLoop (n k : Nat) : List Int → List Int → Nat → Int → Option Int
  | [], _, _, r => some r
  | c :: rest, t, i, r => do
    let (t₁, nd₁, c₁) ← lexRankScan k t ((2 ^ k : Int) + c) c
    let cur ← getI t₁ nd₁
    let t₂ ← setI t₁ nd₁ (cur + 1)
    lexRankLoop n k rest t₂ (i + 1) (r * ((n : Int) - (i : Int)) + c₁)

/-- Go `(p ZPerm) LexRank() *big.Int`: rank of `p` in lexicographic order via
the binary counting tree of size `2^(k+1)`, `k = log2(len(p))`. -/
def LexRank (p : ZPerm) : Option Int :=
  lexRankLoop p.length (log2 p.length) p
    (List.replicate (2 ^ (log2 p.length + 1)) 0) 0 0

/-- Least-significant-first factoradic digits: `cnt` digits of `v` by repeated
division by the ascending radices `radix, radix+1, …`. -/
def factDigits : Nat → Nat → Nat → List Nat
  | 0, _, _ => []
  | cnt + 1, radix, v => v % radix :: factDigits cnt (radix + 1) (v / radix)

/-- Modelled from the spec: `NewFact` — the rank-to-factoradic conversion
used by `LexPerm` — is declared in a source file missing from this repository
snapshot.  Per the spec, unranking must "first verify 0 ≤ r < n!; fail
distinctly and leave no output on violation", and convert `r` to factoradic
digits "via repeated division by descending factorial radices".  The digits
are produced least significant first with radices `2, 3, …, n` (digit `f[i]`
has place value `(i+1)!`; the always-zero `0!` digit is omitted), which is
exactly the digit layout `LexPerm`'s placement loop consumes. -/
def NewFact (i : Int) (n : Nat) : Option (List Nat) :=
  if 0 ≤ i ∧ i < (Nat.factorial n : Int) then some (factDigits (n - 1) 2 i.toNat)
  else none

/-- The inner `j` loop of `LexPerm`'s tree initialization:
`t[end+j-1] = 1 << (k-i)` for `j = 1 … end`, `end = 2^i`. -/
def lexPermInitJ : Nat → Nat → Nat → Nat → List Int → Option (List Int)
  | 0, _, _, _, t => some t
  | jrem + 1, j, i, k, t => do
    let t' ← setI t ((2 ^ i : Int) + (j : Int) - 1) ((2 ^ (k - i) : Int))
    lexPermInitJ jrem (j + 1) i k t'

/-- The outer `i` loop of `LexPerm`'s tree initialization, `i = 0 … k`. -/
def lexPermInitI : Nat → Nat → Nat → List Int → Option (List Int)
  | 0, _, _, t => some t
  | irem + 1, i, k, t => do
    let t' ← lexPermInitJ (2 ^ i) 1 i k t
    lexPermInitI irem (i + 1) k t'

/-- The per-digit descent of `LexPerm`:
`t[nd]--; nd <<= 1; if d >= t[nd] { d -= t[nd]; nd++ }`, `k` times. -/
def lexPermDescend : Nat → List Int → Int → Int → Option (List Int × Int × Int)
  | 0, t, nd, d => some (t, nd, d)
  | j + 1, t, nd, d => do
    let cur ← getI t nd
    let t' ← setI t nd (cur - 1)
    let nd₂ := 2 * nd
    let v ← getI t' nd₂
    if d ≥ v then lexPermDescend j t' (nd₂ + 1) (d - v)
    else lexPermDescend j t' nd₂ d

/-- The placement loop of `LexPerm`: Go iterates `i = len(f)-1 … 0` writing
`p[len(f)-i-1]`; equivalently the digits are consumed most significant first
(the list below is `f.reverse`) writing positions `0, 1, …`. -/
def lexPermPlace (k : Nat) (k2 : Int) :
    List Nat → List Int → ZPerm → Nat → Option (List Int × ZPerm)
  | [], t, p, _ => some (t, p)
  | d :: rest, t, p, pos => do
    let (t', nd, _) ← lexPermDescend k t 1 (d : Int)
    let t'' ← setI t' nd 0
    let p' ← setI p (pos : Int) (nd - k2)
    lexPermPlace k k2 rest t'' p' (pos + 1)

/-- The final walk of `LexPerm` locating the remaining value:
`nd <<= 1; nd += 1 - t[nd]`, `k` times. -/
def lexPermFinal : Nat → List Int → Int → Option Int
  | 0, _, nd => some nd
  | j + 1, t, nd => do
    let nd₂ := 2 * nd
    let v ← getI t nd₂
    lexPermFinal j t (nd₂ + (1 - v))

/-- Go `LexPerm(i *big.Int, n int) (ZPerm, bool)`.  Outer `none` models a
runtime panic; `some none` models the `(nil, false)` failure return; and
`some (some p)` models the `(p, true)` success return. -/
def LexPerm (i : Int) (n : Nat) : Option (Option ZPerm) :=
  match NewFact i n with
  | none => some none
  | some f =>
    (do
      let k := log2 n
      let t1 ← lexPermInitI (k + 1) 0 k (List.replicate (2 ^ (k + 1)) 0)
      let (t2, p1) ← lexPermPlace k ((2 ^ k : Nat) : Int) f.reverse t1
        (List.replicate n 0) 0
      let nd ← lexPermFinal k t2 1
      let p2 ← setI p1 (f.length : Int) (nd - ((2 ^ k : Nat) : Int))
      pure (some p2) : Option (Option ZPerm))

/-! #### Recursive Steinhaus-Johnson-Trotter generator (`sjtr`, `SJTRecursive`)

Each Go closure owns mutable variables (`perm`, and for sizes ≥ 2 also `i`,
`d`, and the sub-closure); the chain of closures is modelled as an inductive
state, and calling the closure as a step function from state × slice to
result × state × slice. -/

/-- The chain of closures built by `sjtr`: the generator for sizes 0 and 1
owns only its `perm` flag; a generator of size `n ≥ 2` owns `perm`, the
position index `i`, the direction `d`, and the size-`n-1` sub-generator. -/
inductive SjtrState : Type
  | base (perm : Bool)
  | node (n : Nat) (perm : Bool) (i : Int) (d : Int) (sub : SjtrState)

/-- Go `sjtr(n)`: the freshly constructed generator (`perm = true`, and for
`n ≥ 2`: `i = n`, `d` zero-valued, sub-generator fresh). -/
def sjtr : Nat → SjtrState
  | 0 => .base true
  | 1 => .base true
  | m + 2 => .node (m + 2) true ((m + 2 : Nat) : Int) 0 (sjtr (m + 1))

/-- One invocation of the closure: Go's
`switch { case !perm: ; case i == n: …; case i == 0: …; default: … }`.
In the default branch the indices satisfy `1 ≤ i ≤ n-1` in every reachable
state, so the `Int.toNat` coercions are exact. -/
def sjtrStep : SjtrState → List Int → Bool × SjtrState × List Int
  | .base b, p => (b, .base false, p)
  | .node n perm i d sub, p =>
    if perm then
      if i = (n : Int) then
        let s := sjtrStep sub (p.take (n - 1))
        (s.1, .node n s.1 ((n : Int) - 1) (-1) s.2.1, s.2.2 ++ p.drop (n - 1))
      else if i = 0 then
        let s := sjtrStep sub (p.drop 1)
        let q := p.take 1 ++ s.2.2
        (s.1, .node n s.1 1 1 s.2.1, if s.1 then q else swapPos q 0 1)
      else
        (true, .node n true (i + d) d sub, swapPos p i.toNat (i.toNat - 1))
    else (false, .node n perm i d sub, p)

/-- `t` successive invocations from state `s` on slice `p`. -/
def sjtrRun : Nat → SjtrState → List Int → SjtrState × List Int
  | 0, s, p => (s, p)
  | t + 1, s, p => sjtrRun t (sjtrStep s p).2.1 (sjtrStep s p).2.2

/-- The result of invocation number `t + 1` (that is, after `t` previous
invocations) of the iterator `SJTRecursive(p)`, which captures `sjtr(len(p))`
and `p`. -/
def sjtrOut (t : Nat) (s : SjtrState) (p : List Int) : Bool :=
  (sjtrStep (sjtrRun t s p).1 (sjtrRun t s p).2).1

/-- A generator that is exhausted for good: every further invocation returns
`false` and changes neither its state nor the slice. -/
def SjtrDead (s : SjtrState) : Prop := ∀ p, sjtrStep s p = (false, s, p)

/-- `w` with `x` inserted at position `pos`: the shape of the slice while the
largest-index element sweeps across during a plain-changes block. -/
def insertAt (pos : Nat) (x : Int) (w : List Int) : List Int :=
  w.take pos ++ (x :: w.drop pos)

/-- Go `SJTRecursive(p)`: the returned iterator captures the slice and a fresh
generator chain for its length; successive invocations are `sjtrStep`s. -/
def SJTRecursive (p : List Int) : SjtrState := sjtr p.length

/-- The full behaviour of the generator `sjtr n` driven on a slice `w` of
length `n`: the first `n!` invocations return `true`, all later ones `false`;
the slice is back in its original order once the first `false` has been
returned and the generator is dead from then on; the first invocation does
not move the slice, and every other invocation up to and including the
terminal one exchanges one adjacent pair of positions (none at the terminal
step when `n ≤ 1`). -/
structure SjtrSpecH (n : Nat) (w : List Int) : Prop where
  outTrue : ∀ t, t < Nat.factorial n → sjtrOut t (sjtr n) w = true
  outFalse : ∀ t, Nat.factorial n ≤ t → sjtrOut t (sjtr n) w = false
  restored : (sjtrRun (Nat.factorial n + 1) (sjtr n) w).2 = w
  dead : SjtrDead (sjtrRun (Nat.factorial n + 1) (sjtr n) w).1
  first : (sjtrRun 1 (sjtr n) w).2 = w
  effect : ∀ t, 2 ≤ t → t ≤ Nat.factorial n →
    ∃ j, j + 1 < n ∧
      (sjtrRun t (sjtr n) w).2 = swapPos (sjtrRun (t - 1) (sjtr n) w).2 j (j + 1)
  terminal2 : 2 ≤ n →
    ∃ j, j + 1 < n ∧
      (sjtrRun (Nat.factorial n + 1) (sjtr n) w).2 =
        swapPos (sjtrRun (Nat.factorial n) (sjtr n) w).2 j (j + 1)
  terminal1 : n ≤ 1 →
    (sjtrRun (Nat.factorial n + 1) (sjtr n) w).2 = (sjtrRun (Nat.factorial n) (sjtr n) w).2

/-- `SjtrSpecH` for every slice of the right length. -/
def SjtrSpec (n : Nat) : Prop := ∀ w : List Int, w.length = n → SjtrSpecH n w

/-! #### `SJTE`: the iterative Steinhaus-Johnson-Trotter generator with
Even's speedup.  The closure owns the padded arrays `p` and `d`, both of
length `n + 2`; it is modelled as a step function from the pair `(p, d)` to
a result and a new pair, `none` modelling a Go index-out-of-range panic. -/

/-- The arrays built by `SJTE(n)`: `p = make([]int, n+2)` with `p[0] = n` and
then `p[i+1] = i` for `i = 0..n` (so `p = [n, 0, 1, …, n]`, sentinels at both
ends), and `d = make([]int, n+2)` with `d[i] = -1` for `i = 0..n` while
`d[n+1]` keeps its zero value. -/
def SJTE (n : Nat) : List Int × List Int :=
  ((n : Int) :: ((List.range (n + 1)).map fun i => (i : Int)),
   List.replicate (n + 1) (-1) ++ [0])

/-- The scan `for i := 1; i <= n; i++ { if v := p[i]; v > max && v > p[i+d[i]]
{ max = v; k = i } }`; the third-from-last argument is the remaining iteration
count.  `&&` short-circuits in Go, so `d[i]` and `p[i+d[i]]` are only read
when `v > max`. -/
def sjteScan (p d : List Int) : Nat → Nat → Int → Nat → Option (Int × Nat)
  | 0, _, mx, k => some (mx, k)
  | fuel + 1, i, mx, k =>
    match getI p (i : Int) with
    | none => none
    | some v =>
      if mx < v then
        match getI d (i : Int) with
        | none => none
        | some di =>
          match getI p ((i : Int) + di) with
          | none => none
          | some w =>
            if w < v then sjteScan p d fuel (i + 1) v i
            else sjteScan p d fuel (i + 1) mx k
      else sjteScan p d fuel (i + 1) mx k

/-- The reset loop `for i := 3; i <= n; i++ { d[i] = -1 }` of the `k == 0`
branch. -/
def sjteReset : List Int → Nat → Nat → Option (List Int)
  | d, 0, _ => some d
  | d, fuel + 1, i =>
    match setI d (i : Int) (-1) with
    | none => none
    | some d' => sjteReset d' fuel (i + 1)

/-- The direction-flip loop `for i := 1; i <= n; i++ { if p[i] > max
{ d[i] = -d[i] } }`. -/
def sjteFlip (p : List Int) (mx : Int) : List Int → Nat → Nat → Option (List Int)
  | d, 0, _ => some d
  | d, fuel + 1, i =>
    match getI p (i : Int) with
    | none => none
    | some v =>
      if mx < v then
        match getI d (i : Int) with
        | none => none
        | some di =>
          match setI d (i : Int) (-di) with
          | none => none
          | some d' => sjteFlip p mx d' fuel (i + 1)
      else sjteFlip p mx d fuel (i + 1)

/-- One invocation of the closure returned by `SJTE(n)`: the mobile-element
scan; then either the `k == 0` branch (`p[1], p[2] = 0, 1`, reset of
`d[3..n]`, result `false`) or the swap `p[k], p[nx] = p[nx], max` with
`nx = k + d[k]`, the direction swap `d[k], d[nx] = d[nx], d[k]`, the flip
loop, and result `true`.  Go evaluates the right-hand sides of the paired
assignments before writing, left to right. -/
def sjteStep (n : Nat) (s : List Int × List Int) :
    Option (Bool × (List Int × List Int)) :=
  match sjteScan s.1 s.2 n 1 (-1) 0 with
  | none => none
  | some (mx, k) =>
    if k = 0 then
      match setI s.1 1 0 with
      | none => none
      | some p1 =>
        match setI p1 2 1 with
        | none => none
        | some p2 =>
          match sjteReset s.2 (n - 2) 3 with
          | none => none
          | some d' => some (false, (p2, d'))
    else
      match getI s.2 (k : Int) with
      | none => none
      | some dk =>
        match getI s.1 ((k : Int) + dk) with
        | none => none
        | some pnx =>
          match setI s.1 (k : Int) pnx with
          | none => none
          | some pa =>
            match setI pa ((k : Int) + dk) mx with
            | none => none
            | some pb =>
              match getI s.2 ((k : Int) + dk) with
              | none => none
              | some dnx =>
                match setI s.2 (k : Int) dnx with
                | none => none
                | some da =>
                  match setI da ((k : Int) + dk) dk with
                  | none => none
                  | some db =>
                    match sjteFlip pb mx db n 1 with
                    | none => none
                    | some dc => some (true, (pb, dc))

theorem getD_len_append (C : List Int) (b : Int) (B : List Int) :
    (C ++ b :: B).getD C.length 0 = b := by
  induction C with
  | nil => rfl
  | cons x C ih => simpa using ih

theorem set_len_append (C : List Int) (b a : Int) (B : List Int) :
    (C ++ b :: B).set C.length a = C ++ a :: B := by
  induction C with
  | nil => rfl
  | cons x C ih => simpa using ih

theorem swapPos_cons (x : Int) (q : List Int) (i j : Nat) :
    swapPos (x :: q) (i + 1) (j + 1) = x :: swapPos q i j := by
  simp [swapPos]

theorem swap_decomp (A : List Int) (a : Int) (C : List Int) (b : Int) (B : List Int) :
    swapPos (A ++ (a :: (C ++ (b :: B)))) A.length (A.length + C.length + 1) =
      A ++ (b :: (C ++ (a :: B))) := by
  induction A with
  | nil =>
    simp only [List.nil_append, List.length_nil, Nat.zero_add]
    have h1 : (a :: (C ++ (b :: B))).getD (C.length + 1) 0 = b := by
      simpa using getD_len_append C b B
    have h2 : (a :: (C ++ (b :: B))).getD 0 0 = a := rfl
    simp only [swapPos, h1, h2]
    show (b :: (C ++ (b :: B))).set (C.length + 1) a = b :: (C ++ (a :: B))
    simpa using set_len_append C b a B
  | cons x A ih =>
    have hl : (x :: A).length = A.length + 1 := rfl
    rw [hl]
    have harith : A.length + 1 + C.length + 1 = (A.length + C.length + 1) + 1 := by omega
    rw [harith]
    show swapPos (x :: (A ++ (a :: (C ++ (b :: B))))) (A.length + 1)
          ((A.length + C.length + 1) + 1) = x :: (A ++ (b :: (C ++ (a :: B))))
    rw [swapPos_cons, ih]

theorem revLoop_reverse (fuel : Nat) :
    ∀ (M A B : List Int), M.length ≤ fuel + 1 →
      revLoop fuel (A ++ (M ++ B)) A.length (A.length + M.length - 1) =
        A ++ (M.reverse ++ B) := by
  induction fuel with
  | zero =>
    intro M A B hM
    interval_cases h : M.length
    · rw [List.length_eq_zero] at h; subst h; rfl
    · rcases List.length_eq_one.mp h with ⟨x, rfl⟩
      show revLoop 0 _ _ _ = _
      rfl
  | succ f ih =>
    intro M A B hM
    rcases M with _ | ⟨x, M₂⟩
    · show revLoop (f + 1) (A ++ ([] ++ B)) A.length (A.length + 0 - 1) = A ++ ([] ++ B)
      have hno : ¬ A.length < A.length + 0 - 1 := by omega
      rw [revLoop, if_neg hno]
    rcases M₂.eq_nil_or_concat with rfl | ⟨M', y, rfl⟩
    · have hno : ¬ A.length < A.length + [x].length - 1 := by simp
      rw [revLoop, if_neg hno]
      simp
    · rw [List.concat_eq_append]
      -- M = x :: (M' ++ [y]), length ≥ 2: one swap, then recurse on the interior
      have hM' : M'.length ≤ f + 1 := by simp at hM; omega
      have key : (x :: (M' ++ [y])) ++ B = x :: (M' ++ (y :: B)) := by simp
      have hidx : A.length + (x :: (M' ++ [y])).length - 1 = A.length + M'.length + 1 := by
        simp; omega
      rw [key, hidx]
      rw [revLoop, if_pos (by omega : A.length < A.length + M'.length + 1)]
      rw [swap_decomp A x M' y B]
      have hre : A ++ (y :: (M' ++ (x :: B))) = (A ++ [y]) ++ (M' ++ (x :: B)) := by simp
      have hlen2 : A.length + 1 = (A ++ [y]).length := by simp
      have hr2 : A.length + M'.length + 1 - 1 = (A ++ [y]).length + M'.length - 1 := by
        simp
      rw [hre, hlen2, hr2, ih M' (A ++ [y]) (x :: B) hM']
      simp

/-! ### Characterizing the scan loops of `LexNext` -/

theorem lexFindK_none (p : List Int) :
    ∀ m, lexFindK p m = none → ∀ j, j ≤ m → p.getD j 0 ≥ p.getD (j + 1) 0 := by
  intro m
  induction m with
  | zero =>
    intro h j hj
    interval_cases j
    simp only [Nat.zero_add]
    by_contra hc
    rw [lexFindK, if_neg hc] at h
    exact Option.some_ne_none _ h
  | succ m ih =>
    intro h j hj
    rw [lexFindK] at h
    by_cases hc : p.getD (m + 1) 0 ≥ p.getD (m + 2) 0
    · rw [if_pos hc] at h
      rcases Nat.lt_or_ge j (m + 1) with hj' | hj'
      · exact ih h j (by omega)
      · have : j = m + 1 := by omega
        subst this; exact hc
    · rw [if_neg hc] at h
      exact absurd h (Option.some_ne_none _)

theorem lexFindK_some (p : List Int) :
    ∀ m k, lexFindK p m = some k →
      k ≤ m ∧ p.getD k 0 < p.getD (k + 1) 0 ∧
        ∀ j, k < j → j ≤ m → p.getD j 0 ≥ p.getD (j + 1) 0 := by
  intro m
  induction m with
  | zero =>
    intro k h
    rw [lexFindK] at h
    by_cases hc : p.getD 0 0 ≥ p.getD 1 0
    · rw [if_pos hc] at h; cases h
    · rw [if_neg hc] at h
      cases h
      exact ⟨Nat.le_refl _, by simpa using lt_of_not_ge hc, fun j hj hj' => by omega⟩
  | succ m ih =>
    intro k h
    rw [lexFindK] at h
    by_cases hc : p.getD (m + 1) 0 ≥ p.getD (m + 2) 0
    · rw [if_pos hc] at h
      obtain ⟨h1, h2, h3⟩ := ih k h
      refine ⟨by omega, h2, fun j hj hj' => ?_⟩
      rcases Nat.lt_or_ge j (m + 1) with hj'' | hj''
      · exact h3 j hj (by omega)
      · have : j = m + 1 := by omega
        subst this; exact hc
    · rw [if_neg hc] at h
      cases h
      exact ⟨Nat.le_refl _, by simpa using lt_of_not_ge hc, fun j hj hj' => by omega⟩

theorem lexFindL_spec (p : List Int) (a : Int) :
    ∀ m, (∃ j, j ≤ m ∧ a < p.getD j 0) →
      a < p.getD (lexFindL p a m) 0 ∧ lexFindL p a m ≤ m ∧
        ∀ j, lexFindL p a m < j → j ≤ m → a ≥ p.getD j 0 := by
  intro m
  induction m with
  | zero =>
    intro ⟨j, hj, hja⟩
    interval_cases j
    exact ⟨hja, Nat.le_refl _, fun j h1 h2 => by omega⟩
  | succ m ih =>
    intro ⟨j, hj, hja⟩
    rw [lexFindL]
    by_cases hc : a ≥ p.getD (m + 1) 0
    · rw [if_pos hc]
      have hex : ∃ j, j ≤ m ∧ a < p.getD j 0 := by
        refine ⟨j, ?_, hja⟩
        rcases Nat.lt_or_ge j (m + 1) with h' | h'
        · omega
        · have : j = m + 1 := by omega
          subst this; omega
      obtain ⟨h1, h2, h3⟩ := ih hex
      refine ⟨h1, by omega, fun j' hj1 hj2 => ?_⟩
      rcases Nat.lt_or_ge j' (m + 1) with h' | h'
      · exact h3 j' hj1 (by omega)
      · have : j' = m + 1 := by omega
        subst this; exact hc
    · rw [if_neg hc]
      exact ⟨by omega, Nat.le_refl _, fun j' h1 h2 => by omega⟩

/-! ### Order utilities: descending lists are lexicographically maximal -/

theorem lexLt_trans : ∀ {p q r : List Int}, LexLt p q → LexLt q r → LexLt p r := by
  intro p q r h1
  induction h1 generalizing r with
  | nil =>
    intro h2
    cases h2 with
    | cons _ => exact List.Lex.nil
    | rel _ => exact List.Lex.nil
  | @cons a l₁ l₂ h ih =>
    intro h2
    cases h2 with
    | cons h' => exact List.Lex.cons (ih h')
    | rel h' => exact List.Lex.rel h'
  | @rel a₁ l₁ a₂ l₂ h =>
    intro h2
    cases h2 with
    | cons h' => exact List.Lex.rel h
    | rel h' => exact List.Lex.rel (lt_trans h h')

theorem lexLt_irrefl (p : List Int) : ¬ LexLt p p := by
  induction p with
  | nil => exact fun h => by cases h
  | cons x t ih =>
    intro h
    cases h with
    | cons h' => exact ih h'
    | rel h' => exact lt_irrefl _ h'

theorem lexLt_cons_cases {x y : Int} {t r : List Int} (h : LexLt (x :: t) (y :: r)) :
    x < y ∨ (x = y ∧ LexLt t r) := by
  cases h with
  | cons h' => exact Or.inr ⟨rfl, h'⟩
  | rel h' => exact Or.inl h'

/-- A non-increasing list is the lexicographically greatest arrangement of its
multiset of values. -/
theorem desc_max {s : List Int} (hs : NonIncr s) :
    ∀ t, t.Perm s → t = s ∨ LexLt t s := by
  induction s with
  | nil =>
    intro t ht
    exact Or.inl ht.eq_nil
  | cons x s' ih =>
    intro t ht
    rcases t with _ | ⟨y, t'⟩
    · exact absurd ht.symm (by simp)
    have hy : y ∈ x :: s' := ht.mem_iff.mp (List.mem_cons_self y t')
    have hyx : y ≤ x := by
      rcases List.mem_cons.mp hy with rfl | h
      · exact le_refl _
      · exact (List.sorted_cons.mp hs).1 y h
    rcases lt_or_eq_of_le hyx with hlt | rfl
    · exact Or.inr (List.Lex.rel hlt)
    · have ht' : t'.Perm s' := ht.cons_inv
      rcases ih (List.sorted_cons.mp hs).2 t' ht' with rfl | h
      · exact Or.inl rfl
      · exact Or.inr (List.Lex.cons h)

theorem decomp_at (p : List Int) (k : Nat) (hk : k < p.length) :
    p = p.take k ++ (p.getD k 0 :: p.drop (k + 1)) := by
  conv_lhs => rw [← List.take_append_drop k p]
  rw [List.drop_eq_getElem_cons hk, List.getD_eq_getElem p 0 hk]

theorem getD_drop (p : List Int) (n i : Nat) :
    (p.drop n).getD i 0 = p.getD (n + i) 0 := by
  rw [List.getD_eq_getElem?_getD, List.getD_eq_getElem?_getD, List.getElem?_drop]

/-- A list all of whose adjacent pairs are `≥`-related is non-increasing. -/
theorem sorted_ge_of_adjacent (p : List Int)
    (h : ∀ j, j + 1 < p.length → p.getD j 0 ≥ p.getD (j + 1) 0) : NonIncr p := by
  rw [NonIncr, List.Sorted, ← List.chain'_iff_pairwise, List.chain'_iff_get]
  intro i hi
  have hi1 : i + 1 < p.length := by omega
  have hi0 : i < p.length := by omega
  have := h i hi1
  rwa [List.getD_eq_getElem p 0 hi0, List.getD_eq_getElem p 0 hi1] at this

theorem adjacent_of_sorted_ge {p : List Int} (h : NonIncr p) :
    ∀ j, j + 1 < p.length → p.getD j 0 ≥ p.getD (j + 1) 0 := by
  intro j hj
  have hj0 : j < p.length := by omega
  rw [NonIncr, List.Sorted, ← List.chain'_iff_pairwise, List.chain'_iff_get] at h
  have := h j (by omega)
  rwa [List.getD_eq_getElem p 0 hj0, List.getD_eq_getElem p 0 hj]

/-- A non-decreasing list is the lexicographically least arrangement of its
multiset of values. -/
theorem asc_min {s : List Int} (hs : NonDecr s) :
    ∀ t, t.Perm s → t = s ∨ LexLt s t := by
  induction s with
  | nil =>
    intro t ht
    exact Or.inl ht.eq_nil
  | cons x s' ih =>
    intro t ht
    rcases t with _ | ⟨y, t'⟩
    · exact absurd ht.symm (by simp)
    have hy : y ∈ x :: s' := ht.mem_iff.mp (List.mem_cons_self y t')
    have hyx : x ≤ y := by
      rcases List.mem_cons.mp hy with rfl | h
      · exact le_refl _
      · exact (List.sorted_cons.mp hs).1 y h
    rcases lt_or_eq_of_le hyx with hlt | h
    · exact Or.inr (List.Lex.rel hlt)
    · subst h
      have ht' : t'.Perm s' := ht.cons_inv
      rcases ih (List.sorted_cons.mp hs).2 t' ht' with rfl | h
      · exact Or.inl rfl
      · exact Or.inr (List.Lex.cons h)

/-! ### The pivot/successor/reverse step produces the lexicographic successor -/

section LexSuccCore

variable (a : Int) (B₁ : List Int) (b : Int) (B₂ : List Int)

theorem lexSucc_min (hB : NonIncr (B₁ ++ (b :: B₂))) (hab : a < b)
    (hB₂ : ∀ x ∈ B₂, x ≤ a) :
    ∀ (A r : List Int), r.Perm (A ++ (a :: (B₁ ++ (b :: B₂)))) →
      LexLt (A ++ (a :: (B₁ ++ (b :: B₂)))) r →
      r = A ++ (b :: (B₁ ++ (a :: B₂)).reverse) ∨
        LexLt (A ++ (b :: (B₁ ++ (a :: B₂)).reverse)) r := by
  obtain ⟨hB₁s, hbB₂s, hcross⟩ := List.pairwise_append.mp hB
  -- facts about the modified suffix
  have hmod : NonIncr (B₁ ++ (a :: B₂)) := by
    refine List.pairwise_append.mpr ⟨hB₁s, ?_, ?_⟩
    · exact List.sorted_cons.mpr ⟨fun x hx => hB₂ x hx, (List.sorted_cons.mp hbB₂s).2⟩
    · intro u hu v hv
      rcases List.mem_cons.mp hv with rfl | hv'
      · exact le_of_lt (lt_of_lt_of_le hab (hcross u hu b (List.mem_cons_self b B₂)))
      · exact hcross u hu v (List.mem_cons.mpr (Or.inr hv'))
  have hRs : NonDecr ((B₁ ++ (a :: B₂)).reverse) := by
    rw [NonDecr, List.Sorted, List.pairwise_reverse]
    exact hmod
  have hRperm : ((B₁ ++ (a :: B₂)).reverse).Perm (a :: (B₁ ++ B₂)) :=
    (List.reverse_perm _).trans List.perm_middle
  intro A
  induction A with
  | cons x A ih =>
    intro r hperm hlex
    rcases r with _ | ⟨y, r'⟩
    · cases hlex
    have hlex' : LexLt (x :: (A ++ (a :: (B₁ ++ (b :: B₂))))) (y :: r') := hlex
    rcases lexLt_cons_cases hlex' with hxy | ⟨rfl, htail⟩
    · exact Or.inr (List.Lex.rel hxy)
    · have hperm' : r'.Perm (A ++ (a :: (B₁ ++ (b :: B₂)))) := hperm.cons_inv
      rcases ih r' hperm' htail with rfl | h
      · exact Or.inl rfl
      · exact Or.inr (List.Lex.cons h)
  | nil =>
    intro r hperm hlex
    rcases r with _ | ⟨y, r'⟩
    · cases hlex
    have hlex' : LexLt (a :: (B₁ ++ (b :: B₂))) (y :: r') := hlex
    rcases lexLt_cons_cases hlex' with hay | ⟨rfl, htail⟩
    · -- head strictly increased: it must be a suffix value above `a`, hence ≥ b
      have hy : y ∈ a :: (B₁ ++ (b :: B₂)) := hperm.mem_iff.mp (List.mem_cons_self y r')
      have hyB : y ∈ B₁ ++ (b :: B₂) := by
        rcases List.mem_cons.mp hy with rfl | h
        · exact absurd hay (lt_irrefl _)
        · exact h
      have hyb : b ≤ y := by
        rcases List.mem_append.mp hyB with h1 | h2
        · exact hcross y h1 b (List.mem_cons_self b B₂)
        · rcases List.mem_cons.mp h2 with rfl | h2'
          · exact le_refl _
          · exact absurd (lt_of_lt_of_le hay (hB₂ y h2')) (lt_irrefl a)
      rcases lt_or_eq_of_le hyb with hby | rfl
      · exact Or.inr (List.Lex.rel hby)
      · -- heads equal to b: compare tails with the ascending minimum
        have hstep : (a :: (B₁ ++ (b :: B₂))).Perm (b :: (a :: (B₁ ++ B₂))) :=
          (List.Perm.cons a List.perm_middle).trans (List.Perm.swap b a _)
        have hr' : r'.Perm (a :: (B₁ ++ B₂)) := (hperm.trans hstep).cons_inv
        have hr'R : r'.Perm ((B₁ ++ (a :: B₂)).reverse) := hr'.trans hRperm.symm
        rcases asc_min hRs r' hr'R with rfl | h
        · exact Or.inl rfl
        · exact Or.inr (List.Lex.cons h)
    · -- heads equal to a: the old suffix was already maximal, contradiction
      have hr' : r'.Perm (B₁ ++ (b :: B₂)) := hperm.cons_inv
      rcases desc_max hB r' hr' with rfl | h
      · exact absurd htail (lexLt_irrefl _)
      · exact absurd (lexLt_trans htail h) (lexLt_irrefl _)

theorem lexSucc_core (A : List Int) (hB : NonIncr (B₁ ++ (b :: B₂))) (hab : a < b)
    (hB₂ : ∀ x ∈ B₂, x ≤ a) :
    IsLexSucc (A ++ (a :: (B₁ ++ (b :: B₂)))) (A ++ (b :: (B₁ ++ (a :: B₂)).reverse)) := by
  refine ⟨?_, ?_, lexSucc_min a B₁ b B₂ hB hab hB₂ A⟩
  · refine List.Perm.append_left A ?_
    have s1 : (b :: (B₁ ++ (a :: B₂)).reverse).Perm (b :: (B₁ ++ (a :: B₂))) :=
      List.Perm.cons b (List.reverse_perm _)
    have s2 : (b :: (B₁ ++ (a :: B₂))).Perm (b :: (a :: (B₁ ++ B₂))) :=
      List.Perm.cons b List.perm_middle
    have s3 : (b :: (a :: (B₁ ++ B₂))).Perm (a :: (b :: (B₁ ++ B₂))) :=
      List.Perm.swap a b _
    have s4 : (a :: (b :: (B₁ ++ B₂))).Perm (a :: (B₁ ++ (b :: B₂))) :=
      List.Perm.cons a List.perm_middle.symm
    exact ((s1.trans s2).trans s3).trans s4
  · exact List.Lex.append_left _ (List.Lex.rel hab) A

end LexSuccCore

/-! ### Behaviour of the `LexNext` function itself -/

theorem LexNext_of_nonIncr {p : List Int} (h : NonIncr p) : LexNext p = (false, p) := by
  by_cases hlen : p.length ≤ 1
  · rw [LexNext, if_pos hlen]
  · have hfk : lexFindK p (p.length - 1 - 1) = none := by
      cases hfk : lexFindK p (p.length - 1 - 1) with
      | none => rfl
      | some k =>
        obtain ⟨hk_le, hk_lt, _⟩ := lexFindK_some p _ k hfk
        have hadj : p.getD k 0 ≥ p.getD (k + 1) 0 :=
          adjacent_of_sorted_ge h k (by omega)
        omega
    rw [LexNext, if_neg hlen]
    rw [hfk]

theorem LexNext_of_not_nonIncr {p : List Int} (h : ¬ NonIncr p) :
    (LexNext p).1 = true ∧ IsLexSucc p (LexNext p).2 := by
  have hlen : ¬ p.length ≤ 1 := by
    intro hl
    apply h
    rcases p with _ | ⟨x, _ | ⟨y, t⟩⟩
    · exact List.sorted_nil
    · exact List.sorted_singleton x
    · simp at hl
  rcases hfk : lexFindK p (p.length - 1 - 1) with _ | k
  · exact absurd
      (sorted_ge_of_adjacent p (fun j hj => lexFindK_none p _ hfk j (by omega))) h
  obtain ⟨hk_le, hk_lt, hk_after⟩ := lexFindK_some p _ k hfk
  have hklen : k + 1 < p.length := by omega
  have hklen0 : k < p.length := by omega
  obtain ⟨hl_lt, hl_le, hl_after⟩ :=
    lexFindL_spec p (p.getD k 0) (p.length - 1) ⟨k + 1, by omega, hk_lt⟩
  set l := lexFindL p (p.getD k 0) (p.length - 1) with hldef
  have hkl : k + 1 ≤ l := by
    by_contra hc
    push_neg at hc
    have := hl_after (k + 1) (by omega) (by omega)
    omega
  -- decomposition of p at the pivot k and the successor l
  have hpdecomp : p = p.take k ++ (p.getD k 0 :: p.drop (k + 1)) := decomp_at p k hklen0
  have hdroplen : (p.drop (k + 1)).length = p.length - (k + 1) := by simp
  have hil : l - (k + 1) < (p.drop (k + 1)).length := by
    rw [hdroplen]; omega
  have hBdecomp : p.drop (k + 1) =
      (p.drop (k + 1)).take (l - (k + 1)) ++
        ((p.drop (k + 1)).getD (l - (k + 1)) 0 ::
          (p.drop (k + 1)).drop (l - (k + 1) + 1)) := decomp_at _ _ hil
  have hBgetD : (p.drop (k + 1)).getD (l - (k + 1)) 0 = p.getD l 0 := by
    rw [getD_drop]; congr 1; omega
  rw [hBgetD] at hBdecomp
  have hp2 : p = p.take k ++ (p.getD k 0 ::
      ((p.drop (k + 1)).take (l - (k + 1)) ++
        (p.getD l 0 :: (p.drop (k + 1)).drop (l - (k + 1) + 1)))) := by
    conv_lhs => rw [hpdecomp]
    rw [← hBdecomp]
  -- the suffix after the pivot is non-increasing
  have hSB : NonIncr (p.drop (k + 1)) := by
    apply sorted_ge_of_adjacent
    intro j hj
    rw [getD_drop, getD_drop,
      show k + 1 + (j + 1) = (k + 1 + j) + 1 from by omega]
    apply hk_after (k + 1 + j) (by omega)
    rw [hdroplen] at hj; omega
  have hSB' : NonIncr ((p.drop (k + 1)).take (l - (k + 1)) ++
      (p.getD l 0 :: (p.drop (k + 1)).drop (l - (k + 1) + 1))) := by
    rw [← hBdecomp]; exact hSB
  -- all elements after the successor position are at most the pivot value
  have hB₂ : ∀ x ∈ (p.drop (k + 1)).drop (l - (k + 1) + 1), x ≤ p.getD k 0 := by
    intro x hx
    rw [List.drop_drop] at hx
    rw [show k + 1 + (l - (k + 1) + 1) = l + 1 from by omega] at hx
    obtain ⟨j, hj, rfl⟩ := List.mem_iff_getElem.mp hx
    have hjlen : l + 1 + j < p.length := by
      have := hj; simp at this; omega
    have hgd : (p.drop (l + 1))[j] = p.getD (l + 1 + j) 0 := by
      rw [← getD_drop p (l + 1) j]
      rw [List.getD_eq_getElem _ 0 hj]
    rw [hgd]
    exact hl_after (l + 1 + j) (by omega) (by omega)
  -- lengths of the pieces
  have hA : (p.take k).length = k := by rw [List.length_take]; omega
  have hC : ((p.drop (k + 1)).take (l - (k + 1))).length = l - (k + 1) := by
    rw [List.length_take, hdroplen]; omega
  -- compute the function's result
  have hswap : swapPos p k l = p.take k ++ (p.getD l 0 ::
      ((p.drop (k + 1)).take (l - (k + 1)) ++
        (p.getD k 0 :: (p.drop (k + 1)).drop (l - (k + 1) + 1)))) := by
    have hsd := swap_decomp (p.take k) (p.getD k 0)
      ((p.drop (k + 1)).take (l - (k + 1))) (p.getD l 0)
      ((p.drop (k + 1)).drop (l - (k + 1) + 1))
    rw [hA, hC, show k + (l - (k + 1)) + 1 = l from by omega] at hsd
    conv_lhs => rw [hp2]
    exact hsd
  have hM : ((p.drop (k + 1)).take (l - (k + 1)) ++
      (p.getD k 0 :: (p.drop (k + 1)).drop (l - (k + 1) + 1))).length =
        p.length - (k + 1) := by
    simp only [List.length_append, List.length_cons, List.length_drop, hC, hdroplen]
    omega
  have hrl : revLoop (p.length - 1 - (k + 1))
      (p.take k ++ (p.getD l 0 ::
        ((p.drop (k + 1)).take (l - (k + 1)) ++
          (p.getD k 0 :: (p.drop (k + 1)).drop (l - (k + 1) + 1)))))
      (k + 1) (p.length - 1) =
      p.take k ++ (p.getD l 0 ::
        ((p.drop (k + 1)).take (l - (k + 1)) ++
          (p.getD k 0 :: (p.drop (k + 1)).drop (l - (k + 1) + 1))).reverse) := by
    have hrr := revLoop_reverse (p.length - 1 - (k + 1))
      ((p.drop (k + 1)).take (l - (k + 1)) ++
        (p.getD k 0 :: (p.drop (k + 1)).drop (l - (k + 1) + 1)))
      (p.take k ++ [p.getD l 0]) []
    rw [hM] at hrr
    have hA1 : (p.take k ++ [p.getD l 0]).length = k + 1 := by simp [hA]
    rw [hA1] at hrr
    rw [show k + 1 + (p.length - (k + 1)) - 1 = p.length - 1 from by omega] at hrr
    have hfuel : p.length - (k + 1) ≤ p.length - 1 - (k + 1) + 1 := by omega
    have hlift := hrr hfuel
    simp only [List.append_nil, List.append_assoc, List.singleton_append] at hlift
    exact hlift
  have hcomp : LexNext p = (true, p.take k ++ (p.getD l 0 ::
      ((p.drop (k + 1)).take (l - (k + 1)) ++
        (p.getD k 0 :: (p.drop (k + 1)).drop (l - (k + 1) + 1))).reverse)) := by
    rw [LexNext, if_neg hlen]
    simp only [hfk]
    rw [← hldef, hswap, hrl]
  rw [hcomp]
  refine ⟨rfl, ?_⟩
  have hcore := lexSucc_core (p.getD k 0) ((p.drop (k + 1)).take (l - (k + 1)))
    (p.getD l 0) ((p.drop (k + 1)).drop (l - (k + 1) + 1)) (p.take k) hSB' hl_lt hB₂
  rw [← hp2] at hcore
  exact hcore

/-- C1: for every int slice `p`, `LexNext` (and the textually identical
`LexNextInt`) either reorders `p` in place into the lexicographically next
distinct arrangement of the same multiset of values and returns `true`, or —
when `p` is non-increasing, which is the lexicographically maximal arrangement
of its multiset and holds for every `p` of length at most 1 — returns `false`
and leaves `p` unchanged. -/
theorem claim_C1 (p : List Int) :
    LexNextInt p = LexNext p ∧
    (p.length ≤ 1 → NonIncr p) ∧
    (NonIncr p → LexNext p = (false, p) ∧
      ∀ q : List Int, q.Perm p → q = p ∨ LexLt q p) ∧
    (¬ NonIncr p → (LexNext p).1 = true ∧ IsLexSucc p (LexNext p).2) := by
  refine ⟨rfl, ?_, fun h => ⟨LexNext_of_nonIncr h, desc_max h⟩,
    fun h => LexNext_of_not_nonIncr h⟩
  intro hl
  rcases p with _ | ⟨x, _ | ⟨y, t⟩⟩
  · exact List.sorted_nil
  · exact List.sorted_singleton x
  · simp at hl

/-! ### Counting the distinct arrangements of a multiset -/

theorem sum_count_toFinset (p : List Int) : ∑ a ∈ p.toFinset, p.count a = p.length := by
  simpa using Multiset.toFinset_sum_count_eq (↑p : Multiset Int)

theorem prod_count_extend (p : List Int) (v : Int) :
    ∏ w ∈ (p.erase v).toFinset, Nat.factorial ((p.erase v).count w) =
      ∏ w ∈ p.toFinset, Nat.factorial ((p.erase v).count w) := by
  apply Finset.prod_subset
  · intro w hw
    exact List.mem_toFinset.mpr (List.mem_of_mem_erase (List.mem_toFinset.mp hw))
  · intro x _ hnx
    have : (p.erase v).count x = 0 :=
      List.count_eq_zero.mpr (fun hmem => hnx (List.mem_toFinset.mpr hmem))
    rw [this]
    rfl

theorem prod_count_erase (p : List Int) (v : Int) (hv : v ∈ p) :
    ∏ w ∈ p.toFinset, Nat.factorial (p.count w) =
      p.count v * ∏ w ∈ p.toFinset, Nat.factorial ((p.erase v).count w) := by
  have hvF : v ∈ p.toFinset := List.mem_toFinset.mpr hv
  rw [← Finset.mul_prod_erase _ _ hvF,
    ← Finset.mul_prod_erase _ (fun w => Nat.factorial ((p.erase v).count w)) hvF]
  have hcv : (p.erase v).count v = p.count v - 1 := List.count_erase_self v p
  have hfact : Nat.factorial (p.count v) =
      p.count v * Nat.factorial (p.count v - 1) := by
    cases hc : p.count v with
    | zero =>
      exact absurd (List.count_pos_iff.mpr hv) (by omega)
    | succ m => simp [Nat.factorial_succ]
  have hrest : ∏ w ∈ p.toFinset.erase v, Nat.factorial (p.count w) =
      ∏ w ∈ p.toFinset.erase v, Nat.factorial ((p.erase v).count w) := by
    apply Finset.prod_congr rfl
    intro w hw
    rw [List.count_erase_of_ne (Finset.ne_of_mem_erase hw) p]
  rw [hfact, hcv, hrest, mul_assoc]

theorem perm_toFinset_partition (p : List Int) (hp : p ≠ []) :
    p.permutations.toFinset =
      p.toFinset.biUnion
        (fun v => ((p.erase v).permutations.toFinset).image (v :: ·)) := by
  ext q
  simp only [List.mem_toFinset, List.mem_permutations, Finset.mem_biUnion,
    Finset.mem_image]
  constructor
  · intro hq
    rcases q with _ | ⟨v, q'⟩
    · exact absurd hq.symm.eq_nil hp
    · obtain ⟨hv, hq'⟩ := List.cons_perm_iff_perm_erase.mp hq
      exact ⟨v, hv, q', hq', rfl⟩
  · rintro ⟨v, hv, q', hq', rfl⟩
    exact List.cons_perm_iff_perm_erase.mpr ⟨hv, hq'⟩

theorem card_perm_mul_factorial :
    ∀ (n : Nat) (p : List Int), p.length = n →
      (p.permutations.toFinset).card *
          ∏ v ∈ p.toFinset, Nat.factorial (p.count v) =
        Nat.factorial n := by
  intro n
  induction n using Nat.strong_induction_on with
  | _ n ih =>
    intro p hn
    by_cases hp : p = []
    · subst hp
      simp at hn
      subst hn
      simp [List.permutations_nil, Nat.factorial]
    · have hn1 : 1 ≤ n := by
        rcases p with _ | ⟨x, t⟩
        · exact absurd rfl hp
        · simp at hn; omega
      have hdisj : ∀ v ∈ p.toFinset, ∀ w ∈ p.toFinset, v ≠ w →
          Disjoint (((p.erase v).permutations.toFinset).image (v :: ·))
            (((p.erase w).permutations.toFinset).image (w :: ·)) := by
        intro v _ w _ hvw
        apply Finset.disjoint_left.mpr
        intro q hq1 hq2
        simp only [Finset.mem_image] at hq1 hq2
        obtain ⟨q1, _, rfl⟩ := hq1
        obtain ⟨q2, _, heq⟩ := hq2
        exact hvw (List.cons.inj heq.symm).1
      rw [perm_toFinset_partition p hp, Finset.card_biUnion hdisj, Finset.sum_mul]
      have hterm : ∀ v ∈ p.toFinset,
          (((p.erase v).permutations.toFinset).image (v :: ·)).card *
              ∏ w ∈ p.toFinset, Nat.factorial (p.count w) =
            Nat.factorial (n - 1) * p.count v := by
        intro v hv
        have hvp : v ∈ p := List.mem_toFinset.mp hv
        rw [Finset.card_image_of_injective _ (fun a b h => (List.cons.inj h).2)]
        rw [prod_count_erase p v hvp, ← prod_count_extend p v]
        have hlen : (p.erase v).length = n - 1 := by
          rw [List.length_erase_of_mem hvp, hn]
        have := ih (n - 1) (by omega) (p.erase v) hlen
        calc (p.erase v).permutations.toFinset.card *
              (p.count v * ∏ w ∈ (p.erase v).toFinset,
                Nat.factorial ((p.erase v).count w))
            = ((p.erase v).permutations.toFinset.card *
                ∏ w ∈ (p.erase v).toFinset,
                  Nat.factorial ((p.erase v).count w)) * p.count v := by ring
          _ = Nat.factorial (n - 1) * p.count v := by rw [this]
      rw [Finset.sum_congr rfl hterm, ← Finset.mul_sum, sum_count_toFinset, hn]
      cases n with
      | zero => omega
      | succ m => simp [Nat.factorial_succ]; ring

/-! ### Iterating `LexNextInt` from the minimal arrangement -/

theorem lexNextInt_eq (p : List Int) : LexNextInt p = LexNext p := rfl

theorem lexChain_cons (fuel : Nat) (s : List Int) :
    ∃ t, lexChain fuel s = s :: t := by
  cases fuel with
  | zero => exact ⟨[], rfl⟩
  | succ f =>
    by_cases h : (LexNextInt s).1
    · exact ⟨lexChain f (LexNextInt s).2, by rw [lexChain, if_pos h]⟩
    · exact ⟨[], by rw [lexChain, if_neg h]⟩

theorem mem_aboveSet {p₀ s q : List Int} :
    q ∈ aboveSet p₀ s ↔ q.Perm p₀ ∧ (s = q ∨ LexLt s q) := by
  rw [aboveSet, Finset.mem_filter, List.mem_toFinset, List.mem_permutations]

theorem aboveSet_of_nonIncr {p₀ s : List Int} (hs : s.Perm p₀) (hni : NonIncr s) :
    aboveSet p₀ s = {s} := by
  ext q
  rw [mem_aboveSet, Finset.mem_singleton]
  constructor
  · rintro ⟨hq, hge⟩
    rcases hge with rfl | hlt
    · rfl
    · rcases desc_max hni q (hq.trans hs.symm) with rfl | hqs
      · rfl
      · exact absurd (lexLt_trans hlt hqs) (lexLt_irrefl s)
  · rintro rfl
    exact ⟨hs, Or.inl rfl⟩

theorem lexChain_spec :
    ∀ (fuel : Nat) (p₀ s : List Int), s.Perm p₀ →
      (aboveSet p₀ s).card ≤ fuel + 1 →
      (lexChain fuel s).length = (aboveSet p₀ s).card ∧
      List.Chain' LexLt (lexChain fuel s) ∧
      (∀ q ∈ lexChain fuel s, q.Perm p₀) ∧
      ∃ d, (lexChain fuel s).getLast? = some d ∧ NonIncr d := by
  intro fuel
  induction fuel with
  | zero =>
    intro p₀ s hs hcard
    have hni : NonIncr s := by
      by_contra h
      obtain ⟨-, hperm', hlt, -⟩ := LexNext_of_not_nonIncr h
      have h1 : s ∈ aboveSet p₀ s := mem_aboveSet.mpr ⟨hs, Or.inl rfl⟩
      have h2 : (LexNext s).2 ∈ aboveSet p₀ s :=
        mem_aboveSet.mpr ⟨hperm'.trans hs, Or.inr hlt⟩
      have hne : s ≠ (LexNext s).2 := by
        intro he
        rw [← he] at hlt
        exact lexLt_irrefl s hlt
      have hsub : ({s, (LexNext s).2} : Finset (List Int)) ⊆ aboveSet p₀ s := by
        intro x hx
        rcases Finset.mem_insert.mp hx with rfl | hx'
        · exact h1
        · rw [Finset.mem_singleton] at hx'
          subst hx'
          exact h2
      have hcard2 : 2 ≤ (aboveSet p₀ s).card := by
        calc 2 = ({s, (LexNext s).2} : Finset (List Int)).card :=
              (Finset.card_pair hne).symm
          _ ≤ _ := Finset.card_le_card hsub
      omega
    rw [aboveSet_of_nonIncr hs hni]
    exact ⟨by simp [lexChain], List.chain'_singleton s, by simpa [lexChain] using hs,
      s, rfl, hni⟩
  | succ f ih =>
    intro p₀ s hs hcard
    by_cases hb : (LexNextInt s).1
    · have hni : ¬ NonIncr s := by
        intro h
        rw [lexNextInt_eq, LexNext_of_nonIncr h] at hb
        simp at hb
      obtain ⟨-, hperm', hlt, hmin⟩ := LexNext_of_not_nonIncr hni
      have hs' : (LexNext s).2.Perm p₀ := hperm'.trans hs
      have hnotmem : s ∉ aboveSet p₀ (LexNext s).2 := by
        intro hmem
        rcases (mem_aboveSet.mp hmem).2 with heq | hlt'
        · rw [heq] at hlt
          exact lexLt_irrefl s hlt
        · exact lexLt_irrefl s (lexLt_trans hlt hlt')
      have hset : aboveSet p₀ s = insert s (aboveSet p₀ (LexNext s).2) := by
        ext q
        rw [mem_aboveSet, Finset.mem_insert, mem_aboveSet]
        constructor
        · rintro ⟨hq, hge⟩
          rcases hge with rfl | hlt'
          · exact Or.inl rfl
          · rcases hmin q (hq.trans hs.symm) hlt' with rfl | h
            · exact Or.inr ⟨hq, Or.inl rfl⟩
            · exact Or.inr ⟨hq, Or.inr h⟩
        · rintro (rfl | ⟨hq, hge'⟩)
          · exact ⟨hs, Or.inl rfl⟩
          · refine ⟨hq, Or.inr ?_⟩
            rcases hge' with rfl | h
            · exact hlt
            · exact lexLt_trans hlt h
      have hcards : (aboveSet p₀ s).card = (aboveSet p₀ (LexNext s).2).card + 1 := by
        rw [hset, Finset.card_insert_of_not_mem hnotmem]
      obtain ⟨hlen, hchain, hmem, d, hd, hdni⟩ := ih p₀ (LexNext s).2 hs' (by omega)
      have hch : lexChain (f + 1) s = s :: lexChain f (LexNext s).2 := by
        rw [lexChain, if_pos hb, lexNextInt_eq]
      obtain ⟨t, ht⟩ := lexChain_cons f (LexNext s).2
      refine ⟨?_, ?_, ?_, ?_⟩
      · rw [hch, List.length_cons, hlen, hcards]
      · rw [hch, ht]
        exact List.chain'_cons.mpr ⟨hlt, ht ▸ hchain⟩
      · rw [hch]
        intro q hq
        rcases List.mem_cons.mp hq with rfl | hq'
        · exact hs
        · exact hmem q hq'
      · refine ⟨d, ?_, hdni⟩
        rw [hch, ht, List.getLast?_cons_cons, ← ht]
        exact hd
    · have hni : NonIncr s := by
        by_contra h
        obtain ⟨h1, -⟩ := LexNext_of_not_nonIncr h
        rw [lexNextInt_eq] at hb
        exact hb h1
      have hch : lexChain (f + 1) s = [s] := by rw [lexChain, if_neg hb]
      rw [hch, aboveSet_of_nonIncr hs hni]
      exact ⟨by simp, List.chain'_singleton s, by simpa using hs, s, rfl, hni⟩

/-- C5: starting from the sorted-ascending arrangement of any int slice (any
length, any duplicate multiplicities), repeatedly calling `LexNextInt` until it
returns `false` visits exactly `n!/∏(multiplicity!)` arrangements, all of them
pairwise distinct rearrangements of the start, each lexicographically strictly
greater than its predecessor, with the last one visited being the
sorted-descending arrangement. -/
theorem claim_C5 (p : List Int) (hs : NonDecr p) :
    (lexChain (arrangeCount p - 1) p).length = arrangeCount p ∧
    List.Chain' LexLt (lexChain (arrangeCount p - 1) p) ∧
    (lexChain (arrangeCount p - 1) p).Nodup ∧
    (∀ q ∈ lexChain (arrangeCount p - 1) p, q.Perm p) ∧
    ∃ d, (lexChain (arrangeCount p - 1) p).getLast? = some d ∧
      NonIncr d ∧ d.Perm p ∧ ∀ e : List Int, NonIncr e → e.Perm p → e = d := by
  have hall : aboveSet p p = p.permutations.toFinset := by
    ext q
    rw [mem_aboveSet, List.mem_toFinset, List.mem_permutations]
    constructor
    · exact fun h => h.1
    · intro hq
      refine ⟨hq, ?_⟩
      rcases asc_min hs q hq with rfl | h
      · exact Or.inl rfl
      · exact Or.inr h
  have hprodpos : 0 < ∏ v ∈ p.toFinset, Nat.factorial (p.count v) :=
    Finset.prod_pos (fun v _ => Nat.factorial_pos _)
  have hcardall : (p.permutations.toFinset).card = arrangeCount p := by
    have h := card_perm_mul_factorial p.length p rfl
    rw [arrangeCount]
    exact (Nat.div_eq_of_eq_mul_left hprodpos h.symm).symm
  have hcardabove : (aboveSet p p).card = arrangeCount p := by rw [hall, hcardall]
  have hpos : 1 ≤ arrangeCount p := by
    rw [← hcardabove]
    exact Finset.card_pos.mpr ⟨p, mem_aboveSet.mpr ⟨List.Perm.refl p, Or.inl rfl⟩⟩
  obtain ⟨hlen, hchain, hmem, d, hd, hdni⟩ :=
    lexChain_spec (arrangeCount p - 1) p p (List.Perm.refl p)
      (by rw [hcardabove]; omega)
  have hdperm : d.Perm p := hmem d (List.mem_of_getLast?_eq_some hd)
  refine ⟨by rw [hlen, hcardabove], hchain, ?_, hmem, d, hd, hdni, hdperm, ?_⟩
  · haveI : IsTrans (List Int) LexLt := ⟨fun _ _ _ => lexLt_trans⟩
    have hpw : List.Pairwise LexLt (lexChain (arrangeCount p - 1) p) :=
      List.chain'_iff_pairwise.mp hchain
    refine hpw.imp ?_
    intro a b hab heq
    subst heq
    exact lexLt_irrefl a hab
  · intro e he hep
    exact List.eq_of_perm_of_sorted (hep.trans hdperm.symm) he hdni

theorem claim_C5_witness :
    (lexChain (arrangeCount [0, 1, 2] - 1) [0, 1, 2]).length = arrangeCount [0, 1, 2] ∧
    List.Chain' LexLt (lexChain (arrangeCount [0, 1, 2] - 1) [0, 1, 2]) ∧
    (lexChain (arrangeCount [0, 1, 2] - 1) [0, 1, 2]).Nodup ∧
    (∀ q ∈ lexChain (arrangeCount [0, 1, 2] - 1) [0, 1, 2], q.Perm [0, 1, 2]) ∧
    ∃ d, (lexChain (arrangeCount [0, 1, 2] - 1) [0, 1, 2]).getLast? = some d ∧
      NonIncr d ∧ d.Perm [0, 1, 2] ∧
      ∀ e : List Int, NonIncr e → e.Perm [0, 1, 2] → e = d :=
  claim_C5 [0, 1, 2] (by decide)

theorem claim_C1_witness :
    NonIncr [(5 : Int)] ∧
    (LexNext [2, 1, 0] = (false, [2, 1, 0]) ∧
      ∀ q : List Int, q.Perm [2, 1, 0] → q = [2, 1, 0] ∨ LexLt q [2, 1, 0]) ∧
    ((LexNext [0, 1, 2]).1 = true ∧ IsLexSucc [0, 1, 2] (LexNext [0, 1, 2]).2) :=
  ⟨(claim_C1 [5]).2.1 (by decide),
   (claim_C1 [2, 1, 0]).2.2.1 (by decide),
   (claim_C1 [0, 1, 2]).2.2.2 (by decide)⟩

/-! ### The rank/unrank codec: claims C2, C7, C8 -/

/-- C2 (code bug): the claimed unrank/rank round trip fails on the code.  The
permutation `[0,1,2,3,4]` has `LexRank` 0, but `LexPerm 0 5` returns — with
success flag `true` — the slice `[0,1,2,3,3]`, which is not the original
permutation, and not a permutation of `{0,…,4}` at all (`LexPerm`'s final
tree walk `nd += 1 - t[nd]` assumes subtree counts are at most 1, which fails
when `n` is not a power of two and padding leaves share a subtree with the one
remaining real value). -/
theorem claim_C2 :
    LexRank [0, 1, 2, 3, 4] = some 0 ∧
    LexPerm 0 5 = some (some [0, 1, 2, 3, 3]) ∧
    ([0, 1, 2, 3, 3] : List Int) ≠ [0, 1, 2, 3, 4] ∧
    ¬ ([0, 1, 2, 3, 3] : List Int).Perm [0, 1, 2, 3, 4] := by
  refine ⟨rfl, rfl, by decide, by decide⟩

/-- C7: for every `n ≥ 0` and every rank `r` outside `[0, n!)`, `LexPerm r n`
fails distinctly, returning the `(nil, false)` pair — modelled `some none`:
no panic, no partial output.  (`NewFact` is modelled from the spec.) -/
theorem claim_C7 (n : Nat) (r : Int) (h : r < 0 ∨ (Nat.factorial n : Int) ≤ r) :
    LexPerm r n = some none := by
  have hnf : NewFact r n = none := by
    rw [NewFact, if_neg]
    rintro ⟨h0, h1⟩
    rcases h with h' | h'
    · omega
    · omega
  rw [LexPerm, hnf]

theorem claim_C7_witness :
    LexPerm 6 3 = some none ∧ LexPerm (-1) 2 = some none ∧ LexPerm 1 0 = some none :=
  ⟨claim_C7 3 6 (Or.inr (by decide)),
   claim_C7 2 (-1) (Or.inl (by decide)),
   claim_C7 0 1 (Or.inr (by decide))⟩

/-- C8 (code bug): for `n = 1` the claim holds — `LexRank [0] = 0` and
`LexPerm 0 1` succeeds with the identity `[0]` — and `LexRank [] = 0` as
claimed; but `LexPerm 0 0` does not succeed with the empty permutation: the
spec-modelled `NewFact` accepts `r = 0 < 0! = 1`, and the unconditional final
write `p[len(f)] = nd - k2` then indexes position 0 of the empty output
slice — a runtime panic, modelled `none`. -/
theorem claim_C8 :
    LexRank [] = some 0 ∧ LexRank [0] = some 0 ∧
    LexPerm 0 1 = some (some [0]) ∧
    LexPerm 0 0 = none :=
  ⟨rfl, rfl, rfl, rfl⟩

/-! ### The recursive plain-changes generator: basic run lemmas -/

theorem swapPos_length (p : List Int) (i j : Nat) :
    (swapPos p i j).length = p.length := by
  simp [swapPos]

theorem sjtrStep_length : ∀ (s : SjtrState) (p : List Int),
    (sjtrStep s p).2.2.length = p.length := by
  intro s
  induction s with
  | base b => intro p; rfl
  | node n perm i d sub ih =>
    intro p
    rw [sjtrStep]
    by_cases hperm : perm = true
    · rw [if_pos hperm]
      by_cases hin : i = (n : Int)
      · rw [if_pos hin]
        show ((sjtrStep sub (p.take (n - 1))).2.2 ++ p.drop (n - 1)).length = p.length
        rw [List.length_append, ih, List.length_take, List.length_drop]
        omega
      · rw [if_neg hin]
        by_cases hi0 : i = 0
        · rw [if_pos hi0]
          show (if (sjtrStep sub (p.drop 1)).1 = true
              then p.take 1 ++ (sjtrStep sub (p.drop 1)).2.2
              else swapPos (p.take 1 ++ (sjtrStep sub (p.drop 1)).2.2) 0 1).length =
            p.length
          by_cases hr : (sjtrStep sub (p.drop 1)).1 = true
          · rw [if_pos hr, List.length_append, ih, List.length_take, List.length_drop]
            omega
          · rw [if_neg hr, swapPos_length, List.length_append, ih, List.length_take,
              List.length_drop]
            omega
        · rw [if_neg hi0]
          exact swapPos_length p _ _
    · rw [if_neg hperm]

theorem sjtrRun_succ_back (t : Nat) : ∀ (s : SjtrState) (p : List Int),
    sjtrRun (t + 1) s p =
      ((sjtrStep (sjtrRun t s p).1 (sjtrRun t s p).2).2.1,
       (sjtrStep (sjtrRun t s p).1 (sjtrRun t s p).2).2.2) := by
  induction t with
  | zero => intro s p; rfl
  | succ t ih =>
    intro s p
    have h1 : sjtrRun (t + 1 + 1) s p =
        sjtrRun (t + 1) (sjtrStep s p).2.1 (sjtrStep s p).2.2 := rfl
    have h2 : sjtrRun (t + 1) s p =
        sjtrRun t (sjtrStep s p).2.1 (sjtrStep s p).2.2 := rfl
    rw [h1, ih, h2]

theorem sjtrRun_add : ∀ (b a : Nat) (s : SjtrState) (p : List Int),
    sjtrRun (a + b) s p = sjtrRun b (sjtrRun a s p).1 (sjtrRun a s p).2 := by
  intro b
  induction b with
  | zero => intro a s p; rfl
  | succ b ih =>
    intro a s p
    rw [show a + (b + 1) = (a + b) + 1 from rfl, sjtrRun_succ_back, sjtrRun_succ_back, ih]

theorem sjtrRun_length (t : Nat) : ∀ (s : SjtrState) (p : List Int),
    (sjtrRun t s p).2.length = p.length := by
  induction t with
  | zero => intro s p; rfl
  | succ t ih =>
    intro s p
    rw [sjtrRun]
    rw [ih]
    exact sjtrStep_length s p

theorem dead_base : SjtrDead (.base false) := fun _ => rfl

theorem dead_node (n : Nat) (i d : Int) (sub : SjtrState) :
    SjtrDead (.node n false i d sub) := fun _ => rfl

theorem dead_run (s : SjtrState) (hs : SjtrDead s) :
    ∀ (t : Nat) (p : List Int), sjtrRun t s p = (s, p) := by
  intro t
  induction t with
  | zero => intro p; rfl
  | succ t ih =>
    intro p
    rw [sjtrRun, hs p]
    exact ih p

theorem dead_out (s : SjtrState) (hs : SjtrDead s) (t : Nat) (p : List Int) :
    sjtrOut t s p = false := by
  rw [sjtrOut, dead_run s hs t p, hs p]

/-! ### Sweeping an element across the slice, one adjacent swap per call -/

theorem insertAt_zero (x : Int) (w : List Int) : insertAt 0 x w = x :: w := rfl

theorem insertAt_top (x : Int) (w : List Int) : insertAt w.length x w = w ++ [x] := by
  rw [insertAt, List.take_length, List.drop_length]

theorem swapPos_comm (p : List Int) (i j : Nat) (h : i ≠ j) :
    swapPos p i j = swapPos p j i := by
  rw [swapPos, swapPos, List.set_comm _ _ _ h]

theorem take_succ_getD (w : List Int) (pos : Nat) (h : pos < w.length) :
    w.take (pos + 1) = w.take pos ++ [w.getD pos 0] := by
  rw [List.take_succ]
  congr 1
  rw [List.getD_eq_getElem w 0 h]
  rw [List.getElem?_eq_getElem h]
  rfl

theorem insertAt_swap_down (w : List Int) (x : Int) (pos : Nat)
    (h1 : 1 ≤ pos) (h2 : pos ≤ w.length) :
    swapPos (insertAt pos x w) pos (pos - 1) = insertAt (pos - 1) x w := by
  have hlt : pos - 1 < w.length := by omega
  have hdrop : w.drop (pos - 1) = w.getD (pos - 1) 0 :: w.drop pos := by
    have := decomp_at w (pos - 1) hlt
    conv_lhs => rw [show w.drop (pos - 1) = (w.take (pos - 1) ++
      (w.getD (pos - 1) 0 :: w.drop (pos - 1 + 1))).drop (pos - 1) from by rw [← this]]
    rw [List.drop_append_eq_append_drop]
    rw [show pos - 1 + 1 = pos from by omega]
    simp [List.drop_take]
    rw [show pos - 1 - (pos - 1) ⊓ w.length = 0 from by omega]
    rfl
  have htake : w.take pos = w.take (pos - 1) ++ [w.getD (pos - 1) 0] := by
    have := take_succ_getD w (pos - 1) hlt
    rw [show pos - 1 + 1 = pos from by omega] at this
    exact this
  have hA : (w.take (pos - 1)).length = pos - 1 := by
    rw [List.length_take]; omega
  have e1 : insertAt pos x w =
      w.take (pos - 1) ++ (w.getD (pos - 1) 0 :: ([] ++ (x :: w.drop pos))) := by
    rw [insertAt, htake]
    simp
  have e2 : insertAt (pos - 1) x w =
      w.take (pos - 1) ++ (x :: ([] ++ (w.getD (pos - 1) 0 :: w.drop pos))) := by
    rw [insertAt, hdrop]
    simp
  rw [e1, e2, swapPos_comm _ _ _ (by omega)]
  have := swap_decomp (w.take (pos - 1)) (w.getD (pos - 1) 0) [] x (w.drop pos)
  rw [hA, List.length_nil] at this
  rw [show pos - 1 + 0 + 1 = pos from by omega] at this
  exact this

theorem insertAt_swap_up (w : List Int) (x : Int) (pos : Nat) (h : pos < w.length) :
    swapPos (insertAt pos x w) (pos + 1) pos = insertAt (pos + 1) x w := by
  have hdrop : w.drop pos = w.getD pos 0 :: w.drop (pos + 1) := by
    have := decomp_at w pos h
    conv_lhs => rw [show w.drop pos = (w.take pos ++
      (w.getD pos 0 :: w.drop (pos + 1))).drop pos from by rw [← this]]
    rw [List.drop_append_eq_append_drop]
    simp [List.drop_take]
    rw [show pos - pos ⊓ w.length = 0 from by omega]
    rfl
  have htake : w.take (pos + 1) = w.take pos ++ [w.getD pos 0] := take_succ_getD w pos h
  have hA : (w.take pos).length = pos := by rw [List.length_take]; omega
  have e1 : insertAt pos x w =
      w.take pos ++ (x :: ([] ++ (w.getD pos 0 :: w.drop (pos + 1)))) := by
    rw [insertAt, hdrop]
    simp
  have e2 : insertAt (pos + 1) x w =
      w.take pos ++ (w.getD pos 0 :: ([] ++ (x :: w.drop (pos + 1)))) := by
    rw [insertAt, htake]
    simp
  rw [e1, e2, swapPos_comm _ _ _ (by omega)]
  have := swap_decomp (w.take pos) x [] (w.getD pos 0) (w.drop (pos + 1))
  rw [hA, List.length_nil] at this
  rw [show pos + 0 + 1 = pos + 1 from by omega] at this
  exact this

/-- One invocation in the interior of a sweep: a single adjacent swap of
positions `i-1, i`, the index moving by the direction `d`. -/
theorem step_default (N : Nat) (σ : SjtrState) (i : Nat) (d : Int) (p : List Int)
    (h1 : 1 ≤ i) (h2 : i ≤ N - 1) (hN : 2 ≤ N) :
    sjtrStep (.node N true (i : Int) d σ) p =
      (true, .node N true ((i : Int) + d) d σ, swapPos p i (i - 1)) := by
  rw [sjtrStep, if_pos rfl]
  rw [if_neg (by omega : ¬ (i : Int) = (N : Int))]
  rw [if_neg (by omega : ¬ (i : Int) = 0)]
  rw [show (i : Int).toNat = i from Int.toNat_natCast i]

/-- The invocation taken at the upper boundary `i = n`. -/
theorem step_high (N : Nat) (d : Int) (σ : SjtrState) (p : List Int) :
    sjtrStep (.node N true (N : Int) d σ) p =
      ((sjtrStep σ (p.take (N - 1))).1,
       .node N (sjtrStep σ (p.take (N - 1))).1 ((N : Int) - 1) (-1)
         (sjtrStep σ (p.take (N - 1))).2.1,
       (sjtrStep σ (p.take (N - 1))).2.2 ++ p.drop (N - 1)) := by
  rw [sjtrStep, if_pos rfl, if_pos rfl]

/-- The invocation taken at the lower boundary `i = 0`. -/
theorem step_low (N : Nat) (hN : 1 ≤ N) (d : Int) (σ : SjtrState) (p : List Int) :
    sjtrStep (.node N true 0 d σ) p =
      ((sjtrStep σ (p.drop 1)).1,
       .node N (sjtrStep σ (p.drop 1)).1 1 1 (sjtrStep σ (p.drop 1)).2.1,
       if (sjtrStep σ (p.drop 1)).1 = true then p.take 1 ++ (sjtrStep σ (p.drop 1)).2.2
       else swapPos (p.take 1 ++ (sjtrStep σ (p.drop 1)).2.2) 0 1) := by
  rw [sjtrStep, if_pos rfl]
  rw [if_neg (by omega : ¬ (0 : Int) = (N : Int))]
  rw [if_pos rfl]

theorem sweepDown (N : Nat) (hN : 2 ≤ N) (σ : SjtrState) (w : List Int)
    (hw : w.length = N - 1) (x : Int) :
    ∀ c, c ≤ N - 1 →
      sjtrRun c (.node N true ((N - 1 : Nat) : Int) (-1) σ) (insertAt (N - 1) x w) =
        (.node N true ((N - 1 - c : Nat) : Int) (-1) σ, insertAt (N - 1 - c) x w) := by
  intro c
  induction c with
  | zero => intro hc; rfl
  | succ c ih =>
    intro hc
    rw [sjtrRun_succ_back, ih (by omega)]
    rw [step_default N σ (N - 1 - c) (-1) _ (by omega) (by omega) hN]
    show (SjtrState.node N true (((N - 1 - c : Nat) : Int) + (-1)) (-1) σ,
        swapPos (insertAt (N - 1 - c) x w) (N - 1 - c) (N - 1 - c - 1)) = _
    rw [show ((N - 1 - c : Nat) : Int) + (-1) = ((N - 1 - (c + 1) : Nat) : Int) from by
      omega]
    rw [insertAt_swap_down w x (N - 1 - c) (by omega) (by omega)]
    rw [show N - 1 - c - 1 = N - 1 - (c + 1) from by omega]

theorem sweepUp (N : Nat) (hN : 2 ≤ N) (σ : SjtrState) (w : List Int)
    (hw : w.length = N - 1) (x : Int) :
    ∀ c, c ≤ N - 1 →
      sjtrRun c (.node N true 1 1 σ) (insertAt 0 x w) =
        (.node N true ((1 + c : Nat) : Int) 1 σ, insertAt c x w) := by
  intro c
  induction c with
  | zero => intro hc; rfl
  | succ c ih =>
    intro hc
    rw [sjtrRun_succ_back, ih (by omega)]
    have hstate : (SjtrState.node N true ((1 + c : Nat) : Int) 1 σ) =
        (SjtrState.node N true ((1 + c : Nat) : Int) 1 σ) := rfl
    rw [step_default N σ (1 + c) 1 _ (by omega) (by omega) hN]
    show (SjtrState.node N true (((1 + c : Nat) : Int) + 1) 1 σ,
        swapPos (insertAt c x w) (1 + c) (1 + c - 1)) = _
    rw [show ((1 + c : Nat) : Int) + 1 = ((1 + (c + 1) : Nat) : Int) from by omega]
    rw [show 1 + c = c + 1 from by omega, show c + 1 - 1 = c from by omega]
    rw [insertAt_swap_up w x c (by omega)]

/-! ### Further list surgery for the plain-changes induction -/

theorem insertAt_of_length (x : Int) (w : List Int) (n : Nat) (h : w.length = n) :
    insertAt n x w = w ++ [x] := by
  subst h
  exact insertAt_top x w

theorem take_of_length_append (w B : List Int) (n : Nat) (h : w.length = n) :
    (w ++ B).take n = w := by
  subst h
  exact List.take_left w B

theorem drop_of_length_append (w B : List Int) (n : Nat) (h : w.length = n) :
    (w ++ B).drop n = B := by
  subst h
  exact List.drop_left w B

theorem swapPos_append_left (A B : List Int) (i j : Nat)
    (hi : i < A.length) (hj : j < A.length) :
    swapPos (A ++ B) i j = swapPos A i j ++ B := by
  rw [swapPos, swapPos, List.getD_append A B 0 j hj, List.getD_append A B 0 i hi]
  rw [List.set_append_left _ _ hi]
  rw [List.set_append_left _ _ (by rw [List.length_set]; exact hj)]

theorem sjtrRun_one (s : SjtrState) (p : List Int) :
    sjtrRun 1 s p = ((sjtrStep s p).2.1, (sjtrStep s p).2.2) := rfl

theorem run_base_succ (t : Nat) (b : Bool) (p : List Int) :
    sjtrRun (t + 1) (.base b) p = (.base false, p) := by
  show sjtrRun t (.base false) p = _
  exact dead_run _ dead_base t p

/-- The generators of size 0 and 1: the single invocation that reports `true`
does not touch the slice, every later invocation reports `false`. -/
theorem sjtrSpec_low (n : Nat) (hn : n ≤ 1) : SjtrSpec n := by
  have hs : sjtr n = SjtrState.base true := by
    rcases n with _ | _ | n
    · rfl
    · rfl
    · omega
  have hf : Nat.factorial n = 1 := by
    rcases n with _ | _ | n
    · rfl
    · rfl
    · omega
  intro w _
  have hrun1 : sjtrRun 1 (SjtrState.base true) w = (SjtrState.base false, w) :=
    run_base_succ 0 true w
  refine ⟨?_, ?_, ?_, ?_, ?_, ?_, ?_, ?_⟩
  · intro t ht
    rw [hf] at ht
    have ht0 : t = 0 := by omega
    subst ht0
    rw [hs]
    rfl
  · intro t ht
    rw [hf] at ht
    obtain ⟨t', rfl⟩ : ∃ t', t = t' + 1 := ⟨t - 1, by omega⟩
    rw [sjtrOut, hs, run_base_succ]
    rfl
  · rw [hf, hs, run_base_succ]
  · rw [hf, hs, run_base_succ]
    exact dead_base
  · rw [hs, hrun1]
  · intro t h2 h1
    rw [hf] at h1
    omega
  · intro h2
    omega
  · intro _
    rw [hf, hs, run_base_succ, hrun1]

/-- The state and slice at the first invocation of each sweep block: right
after invocation `(j-1)(m+2)+1` of `sjtr (m+2)`, the size-`m+1` sub-generator
has performed `j` invocations on the short slice, and the extra element `x`
sits at the top (`j` odd, about to sweep down) or at the bottom (`j` even,
about to sweep up). -/
theorem sjtr_binv (m : Nat) (w₀ : List Int) (hw₀ : w₀.length = m + 1)
    (hsub : SjtrSpecH (m + 1) w₀) (x : Int) :
    ∀ j, 1 ≤ j → j ≤ Nat.factorial (m + 1) →
      sjtrRun ((j - 1) * (m + 2) + 1) (sjtr (m + 2)) (insertAt (m + 1) x w₀) =
        if j % 2 = 1 then
          (SjtrState.node (m + 2) true ((m + 1 : Nat) : Int) (-1)
             (sjtrRun j (sjtr (m + 1)) w₀).1,
           insertAt (m + 1) x (sjtrRun j (sjtr (m + 1)) w₀).2)
        else
          (SjtrState.node (m + 2) true 1 1 (sjtrRun j (sjtr (m + 1)) w₀).1,
           insertAt 0 x (sjtrRun j (sjtr (m + 1)) w₀).2) := by
  intro j
  induction j with
  | zero => intro h1 _; omega
  | succ j ihj =>
    intro h1 hM
    rcases Nat.eq_zero_or_pos j with hj0 | hj1
    · -- the very first invocation
      subst hj0
      rw [if_pos (show (0 + 1) % 2 = 1 by decide)]
      rw [show (0 + 1 - 1) * (m + 2) + 1 = 0 + 1 from by omega]
      have hins : insertAt (m + 1) x w₀ = w₀ ++ [x] := insertAt_of_length x w₀ _ hw₀
      have hgen : sjtr (m + 2) =
          SjtrState.node (m + 2) true ((m + 2 : Nat) : Int) 0 (sjtr (m + 1)) := rfl
      have hrun : sjtrRun (0 + 1) (sjtr (m + 2)) (insertAt (m + 1) x w₀) =
          ((sjtrStep (sjtr (m + 2)) (insertAt (m + 1) x w₀)).2.1,
           (sjtrStep (sjtr (m + 2)) (insertAt (m + 1) x w₀)).2.2) := rfl
      rw [hrun, hgen, step_high]
      have htake : (insertAt (m + 1) x w₀).take (m + 2 - 1) = w₀ := by
        rw [hins, show m + 2 - 1 = m + 1 from rfl]
        exact take_of_length_append w₀ [x] _ hw₀
      have hdrop : (insertAt (m + 1) x w₀).drop (m + 2 - 1) = [x] := by
        rw [hins, show m + 2 - 1 = m + 1 from rfl]
        exact drop_of_length_append w₀ [x] _ hw₀
      rw [htake, hdrop]
      have hout : (sjtrStep (sjtr (m + 1)) w₀).1 = true :=
        hsub.outTrue 0 (Nat.factorial_pos (m + 1))
      rw [hout]
      rw [show ((m + 2 : Nat) : Int) - 1 = ((m + 1 : Nat) : Int) from by omega]
      rw [insertAt_of_length x (sjtrRun (0 + 1) (sjtr (m + 1)) w₀).2 (m + 1)
        (by rw [sjtrRun_length, hw₀])]
      rfl
    · -- a later block, rolled forward from the previous one
      obtain ⟨j', rfl⟩ : ∃ j', j = j' + 1 := ⟨j - 1, by omega⟩
      have hA := ihj (by omega) (by omega)
      have hWlen : (sjtrRun (j' + 1) (sjtr (m + 1)) w₀).2.length = m + 2 - 1 := by
        rw [sjtrRun_length]
        omega
      have hsucc := sjtrRun_succ_back (j' + 1) (sjtr (m + 1)) w₀
      have harith : (j' + 1 + 1 - 1) * (m + 2) + 1 =
          ((j' + 1 - 1) * (m + 2) + 1) + (m + 1 + 1) := by
        simp only [Nat.add_sub_cancel]
        ring
      rw [harith]
      have hout : (sjtrStep (sjtrRun (j' + 1) (sjtr (m + 1)) w₀).1
          (sjtrRun (j' + 1) (sjtr (m + 1)) w₀).2).1 = true :=
        hsub.outTrue (j' + 1) (by omega)
      by_cases hpar : (j' + 1) % 2 = 1
      · -- odd block `j' + 1`: sweep the top element down, then the low boundary
        rw [if_pos hpar] at hA
        rw [if_neg (show ¬ (j' + 1 + 1) % 2 = 1 by omega)]
        have key : sjtrRun (((j' + 1 - 1) * (m + 2) + 1) + (m + 1 + 1)) (sjtr (m + 2))
            (insertAt (m + 1) x w₀) =
            sjtrRun (m + 1 + 1)
              (SjtrState.node (m + 2) true ((m + 1 : Nat) : Int) (-1)
                (sjtrRun (j' + 1) (sjtr (m + 1)) w₀).1)
              (insertAt (m + 1) x (sjtrRun (j' + 1) (sjtr (m + 1)) w₀).2) := by
          rw [sjtrRun_add, hA]
        rw [key]
        have hsd := sweepDown (m + 2) (by omega) (sjtrRun (j' + 1) (sjtr (m + 1)) w₀).1
          (sjtrRun (j' + 1) (sjtr (m + 1)) w₀).2 hWlen x (m + 1) (by omega)
        rw [show m + 2 - 1 = m + 1 from rfl] at hsd
        rw [show ((m + 1 - (m + 1) : Nat) : Int) = (0 : Int) from by omega] at hsd
        rw [show m + 1 - (m + 1) = 0 from by omega] at hsd
        have key2 : sjtrRun (m + 1 + 1)
            (SjtrState.node (m + 2) true ((m + 1 : Nat) : Int) (-1)
              (sjtrRun (j' + 1) (sjtr (m + 1)) w₀).1)
            (insertAt (m + 1) x (sjtrRun (j' + 1) (sjtr (m + 1)) w₀).2) =
            sjtrRun 1
              (SjtrState.node (m + 2) true 0 (-1)
                (sjtrRun (j' + 1) (sjtr (m + 1)) w₀).1)
              (insertAt 0 x (sjtrRun (j' + 1) (sjtr (m + 1)) w₀).2) := by
          rw [sjtrRun_add, hsd]
        rw [key2, sjtrRun_one]
        have hsl := step_low (m + 2) (by omega) (-1)
          (sjtrRun (j' + 1) (sjtr (m + 1)) w₀).1
          (insertAt 0 x (sjtrRun (j' + 1) (sjtr (m + 1)) w₀).2)
        rw [show (insertAt 0 x (sjtrRun (j' + 1) (sjtr (m + 1)) w₀).2).drop 1 =
            (sjtrRun (j' + 1) (sjtr (m + 1)) w₀).2 from rfl] at hsl
        rw [hout] at hsl
        rw [if_pos rfl] at hsl
        rw [hsl, hsucc]
        rfl
      · -- even block `j' + 1`: sweep the bottom element up, then the high boundary
        rw [if_neg hpar] at hA
        rw [if_pos (show (j' + 1 + 1) % 2 = 1 by omega)]
        have key : sjtrRun (((j' + 1 - 1) * (m + 2) + 1) + (m + 1 + 1)) (sjtr (m + 2))
            (insertAt (m + 1) x w₀) =
            sjtrRun (m + 1 + 1)
              (SjtrState.node (m + 2) true 1 1
                (sjtrRun (j' + 1) (sjtr (m + 1)) w₀).1)
              (insertAt 0 x (sjtrRun (j' + 1) (sjtr (m + 1)) w₀).2) := by
          rw [sjtrRun_add, hA]
        rw [key]
        have hsu := sweepUp (m + 2) (by omega) (sjtrRun (j' + 1) (sjtr (m + 1)) w₀).1
          (sjtrRun (j' + 1) (sjtr (m + 1)) w₀).2 hWlen x (m + 1) (by omega)
        rw [show ((1 + (m + 1) : Nat) : Int) = ((m + 2 : Nat) : Int) from by omega] at hsu
        have key2 : sjtrRun (m + 1 + 1)
            (SjtrState.node (m + 2) true 1 1
              (sjtrRun (j' + 1) (sjtr (m + 1)) w₀).1)
            (insertAt 0 x (sjtrRun (j' + 1) (sjtr (m + 1)) w₀).2) =
            sjtrRun 1
              (SjtrState.node (m + 2) true ((m + 2 : Nat) : Int) 1
                (sjtrRun (j' + 1) (sjtr (m + 1)) w₀).1)
              (insertAt (m + 1) x (sjtrRun (j' + 1) (sjtr (m + 1)) w₀).2) := by
          rw [sjtrRun_add, hsu]
        rw [key2, sjtrRun_one]
        have hsh := step_high (m + 2) 1 (sjtrRun (j' + 1) (sjtr (m + 1)) w₀).1
          (insertAt (m + 1) x (sjtrRun (j' + 1) (sjtr (m + 1)) w₀).2)
        have hiw : insertAt (m + 1) x (sjtrRun (j' + 1) (sjtr (m + 1)) w₀).2 =
            (sjtrRun (j' + 1) (sjtr (m + 1)) w₀).2 ++ [x] :=
          insertAt_of_length x _ _ (by rw [sjtrRun_length, hw₀])
        rw [show (insertAt (m + 1) x (sjtrRun (j' + 1) (sjtr (m + 1)) w₀).2).take
            (m + 2 - 1) = (sjtrRun (j' + 1) (sjtr (m + 1)) w₀).2 from by
          rw [hiw, show m + 2 - 1 = m + 1 from rfl]
          exact take_of_length_append _ [x] _ (by rw [sjtrRun_length, hw₀])] at hsh
        rw [show (insertAt (m + 1) x (sjtrRun (j' + 1) (sjtr (m + 1)) w₀).2).drop
            (m + 2 - 1) = [x] from by
          rw [hiw, show m + 2 - 1 = m + 1 from rfl]
          exact drop_of_length_append _ [x] _ (by rw [sjtrRun_length, hw₀])] at hsh
        rw [hout] at hsh
        rw [hsh]
        rw [show ((m + 2 : Nat) : Int) - 1 = ((m + 1 : Nat) : Int) from by omega]
        rw [insertAt_of_length x (sjtrRun (j' + 1 + 1) (sjtr (m + 1)) w₀).2 (m + 1)
          (by rw [sjtrRun_length, hw₀])]
        rw [hsucc]

/-- The state and slice after invocation `(j-1)(m+2)+1+c` for an odd block
`j`: the extra element has swept down `c` positions. -/
theorem sjtr_master_odd (m : Nat) (w₀ : List Int) (hw₀ : w₀.length = m + 1)
    (hsub : SjtrSpecH (m + 1) w₀) (x : Int) (j c : Nat) (h1 : 1 ≤ j)
    (hM : j ≤ Nat.factorial (m + 1)) (hc : c ≤ m + 1) (hpar : j % 2 = 1) :
    sjtrRun ((j - 1) * (m + 2) + 1 + c) (sjtr (m + 2)) (insertAt (m + 1) x w₀) =
      (SjtrState.node (m + 2) true ((m + 1 - c : Nat) : Int) (-1)
         (sjtrRun j (sjtr (m + 1)) w₀).1,
       insertAt (m + 1 - c) x (sjtrRun j (sjtr (m + 1)) w₀).2) := by
  have hA := sjtr_binv m w₀ hw₀ hsub x j h1 hM
  rw [if_pos hpar] at hA
  have key : sjtrRun ((j - 1) * (m + 2) + 1 + c) (sjtr (m + 2))
      (insertAt (m + 1) x w₀) =
      sjtrRun c
        (SjtrState.node (m + 2) true ((m + 1 : Nat) : Int) (-1)
          (sjtrRun j (sjtr (m + 1)) w₀).1)
        (insertAt (m + 1) x (sjtrRun j (sjtr (m + 1)) w₀).2) := by
    rw [sjtrRun_add, hA]
  rw [key]
  have hsd := sweepDown (m + 2) (by omega) (sjtrRun j (sjtr (m + 1)) w₀).1
    (sjtrRun j (sjtr (m + 1)) w₀).2 (by rw [sjtrRun_length]; omega) x c (by omega)
  rw [show m + 2 - 1 = m + 1 from rfl] at hsd
  exact hsd

/-- The state and slice after invocation `(j-1)(m+2)+1+c` for an even block
`j`: the extra element has swept up `c` positions. -/
theorem sjtr_master_even (m : Nat) (w₀ : List Int) (hw₀ : w₀.length = m + 1)
    (hsub : SjtrSpecH (m + 1) w₀) (x : Int) (j c : Nat) (h1 : 1 ≤ j)
    (hM : j ≤ Nat.factorial (m + 1)) (hc : c ≤ m + 1) (hpar : j % 2 = 0) :
    sjtrRun ((j - 1) * (m + 2) + 1 + c) (sjtr (m + 2)) (insertAt (m + 1) x w₀) =
      (SjtrState.node (m + 2) true ((1 + c : Nat) : Int) 1
         (sjtrRun j (sjtr (m + 1)) w₀).1,
       insertAt c x (sjtrRun j (sjtr (m + 1)) w₀).2) := by
  have hA := sjtr_binv m w₀ hw₀ hsub x j h1 hM
  rw [if_neg (show ¬ j % 2 = 1 by omega)] at hA
  have key : sjtrRun ((j - 1) * (m + 2) + 1 + c) (sjtr (m + 2))
      (insertAt (m + 1) x w₀) =
      sjtrRun c
        (SjtrState.node (m + 2) true 1 1 (sjtrRun j (sjtr (m + 1)) w₀).1)
        (insertAt 0 x (sjtrRun j (sjtr (m + 1)) w₀).2) := by
    rw [sjtrRun_add, hA]
  rw [key]
  exact sweepUp (m + 2) (by omega) (sjtrRun j (sjtr (m + 1)) w₀).1
    (sjtrRun j (sjtr (m + 1)) w₀).2 (by rw [sjtrRun_length]; omega) x c (by omega)

/-- Every invocation strictly inside the cycle returns `true` and performs
exactly one swap of adjacent positions. -/
theorem sjtr_call (m : Nat) (w₀ : List Int) (hw₀ : w₀.length = m + 1)
    (hsub : SjtrSpecH (m + 1) w₀) (x : Int) (j c : Nat) (h1 : 1 ≤ j)
    (hM : j ≤ Nat.factorial (m + 1)) (hc : c ≤ m + 1)
    (hcM : c = m + 1 → j < Nat.factorial (m + 1)) :
    sjtrOut ((j - 1) * (m + 2) + 1 + c) (sjtr (m + 2))
        (insertAt (m + 1) x w₀) = true ∧
    ∃ i, i + 1 < m + 2 ∧
      (sjtrRun ((j - 1) * (m + 2) + 1 + c + 1) (sjtr (m + 2))
          (insertAt (m + 1) x w₀)).2 =
        swapPos (sjtrRun ((j - 1) * (m + 2) + 1 + c) (sjtr (m + 2))
          (insertAt (m + 1) x w₀)).2 i (i + 1) := by
  have hsucc := sjtrRun_succ_back ((j - 1) * (m + 2) + 1 + c) (sjtr (m + 2))
    (insertAt (m + 1) x w₀)
  have hL2 : (sjtrRun ((j - 1) * (m + 2) + 1 + c + 1) (sjtr (m + 2))
      (insertAt (m + 1) x w₀)).2 =
      (sjtrStep (sjtrRun ((j - 1) * (m + 2) + 1 + c) (sjtr (m + 2))
          (insertAt (m + 1) x w₀)).1
        (sjtrRun ((j - 1) * (m + 2) + 1 + c) (sjtr (m + 2))
          (insertAt (m + 1) x w₀)).2).2.2 := by
    rw [hsucc]
  by_cases hpar : j % 2 = 1
  · have hmas := sjtr_master_odd m w₀ hw₀ hsub x j c h1 hM hc hpar
    have hS : (sjtrRun ((j - 1) * (m + 2) + 1 + c) (sjtr (m + 2))
        (insertAt (m + 1) x w₀)).1 =
        SjtrState.node (m + 2) true ((m + 1 - c : Nat) : Int) (-1)
          (sjtrRun j (sjtr (m + 1)) w₀).1 := by
      rw [hmas]
    have hL : (sjtrRun ((j - 1) * (m + 2) + 1 + c) (sjtr (m + 2))
        (insertAt (m + 1) x w₀)).2 =
        insertAt (m + 1 - c) x (sjtrRun j (sjtr (m + 1)) w₀).2 := by
      rw [hmas]
    rcases Nat.lt_or_ge c (m + 1) with hclt | hcge
    · -- interior of a downward sweep
      have hsd := step_default (m + 2) (sjtrRun j (sjtr (m + 1)) w₀).1 (m + 1 - c)
        (-1) (insertAt (m + 1 - c) x (sjtrRun j (sjtr (m + 1)) w₀).2)
        (by omega) (by omega) (by omega)
      constructor
      · rw [sjtrOut, hS, hL, hsd]
      · refine ⟨m + 1 - c - 1, by omega, ?_⟩
        rw [hL2, hS, hL, hsd]
        rw [show m + 1 - c - 1 + 1 = m + 1 - c from by omega]
        rw [swapPos_comm _ (m + 1 - c) (m + 1 - c - 1) (by omega)]
    · -- low boundary: the sub-generator advances, `x` stays in front
      have hce : c = m + 1 := by omega
      subst hce
      have hjM : j < Nat.factorial (m + 1) := hcM rfl
      rw [show ((m + 1 - (m + 1) : Nat) : Int) = (0 : Int) from by omega] at hS
      rw [show m + 1 - (m + 1) = 0 from by omega] at hL
      have hsl := step_low (m + 2) (by omega) (-1) (sjtrRun j (sjtr (m + 1)) w₀).1
        (insertAt 0 x (sjtrRun j (sjtr (m + 1)) w₀).2)
      rw [show (insertAt 0 x (sjtrRun j (sjtr (m + 1)) w₀).2).drop 1 =
          (sjtrRun j (sjtr (m + 1)) w₀).2 from rfl] at hsl
      have hout : (sjtrStep (sjtrRun j (sjtr (m + 1)) w₀).1
          (sjtrRun j (sjtr (m + 1)) w₀).2).1 = true := hsub.outTrue j hjM
      rw [hout] at hsl
      rw [if_pos rfl] at hsl
      have hsb := sjtrRun_succ_back j (sjtr (m + 1)) w₀
      obtain ⟨i₂, hi₂, he⟩ := hsub.effect (j + 1) (by omega) (by omega)
      rw [Nat.add_sub_cancel] at he
      rw [hsb] at he
      have he' : (sjtrStep (sjtrRun j (sjtr (m + 1)) w₀).1
          (sjtrRun j (sjtr (m + 1)) w₀).2).2.2 =
          swapPos (sjtrRun j (sjtr (m + 1)) w₀).2 i₂ (i₂ + 1) := he
      constructor
      · rw [sjtrOut, hS, hL, hsl]
      · refine ⟨i₂ + 1, by omega, ?_⟩
        rw [hL2, hS, hL, hsl]
        rw [show (insertAt 0 x (sjtrRun j (sjtr (m + 1)) w₀).2).take 1 = [x] from rfl]
        rw [he']
        rw [insertAt_zero]
        rw [swapPos_cons]
        rfl
  · have hpar' : j % 2 = 0 := by omega
    have hmas := sjtr_master_even m w₀ hw₀ hsub x j c h1 hM hc hpar'
    have hS : (sjtrRun ((j - 1) * (m + 2) + 1 + c) (sjtr (m + 2))
        (insertAt (m + 1) x w₀)).1 =
        SjtrState.node (m + 2) true ((1 + c : Nat) : Int) 1
          (sjtrRun j (sjtr (m + 1)) w₀).1 := by
      rw [hmas]
    have hL : (sjtrRun ((j - 1) * (m + 2) + 1 + c) (sjtr (m + 2))
        (insertAt (m + 1) x w₀)).2 =
        insertAt c x (sjtrRun j (sjtr (m + 1)) w₀).2 := by
      rw [hmas]
    rcases Nat.lt_or_ge c (m + 1) with hclt | hcge
    · -- interior of an upward sweep
      have hsd := step_default (m + 2) (sjtrRun j (sjtr (m + 1)) w₀).1 (1 + c)
        1 (insertAt c x (sjtrRun j (sjtr (m + 1)) w₀).2)
        (by omega) (by omega) (by omega)
      constructor
      · rw [sjtrOut, hS, hL, hsd]
      · refine ⟨c, by omega, ?_⟩
        rw [hL2, hS, hL, hsd]
        rw [show 1 + c - 1 = c from by omega]
        rw [swapPos_comm _ (1 + c) c (by omega)]
        rw [show 1 + c = c + 1 from by omega]
    · -- high boundary: the sub-generator advances, `x` stays at the back
      have hce : c = m + 1 := by omega
      subst hce
      have hjM : j < Nat.factorial (m + 1) := hcM rfl
      rw [show ((1 + (m + 1) : Nat) : Int) = ((m + 2 : Nat) : Int) from by omega] at hS
      have hWlenj : (sjtrRun j (sjtr (m + 1)) w₀).2.length = m + 1 := by
        rw [sjtrRun_length, hw₀]
      have hiw : insertAt (m + 1) x (sjtrRun j (sjtr (m + 1)) w₀).2 =
          (sjtrRun j (sjtr (m + 1)) w₀).2 ++ [x] := insertAt_of_length x _ _ hWlenj
      have hsh := step_high (m + 2) 1 (sjtrRun j (sjtr (m + 1)) w₀).1
        (insertAt (m + 1) x (sjtrRun j (sjtr (m + 1)) w₀).2)
      rw [show (insertAt (m + 1) x (sjtrRun j (sjtr (m + 1)) w₀).2).take (m + 2 - 1) =
          (sjtrRun j (sjtr (m + 1)) w₀).2 from by
        rw [hiw, show m + 2 - 1 = m + 1 from rfl]
        exact take_of_length_append _ [x] _ hWlenj] at hsh
      rw [show (insertAt (m + 1) x (sjtrRun j (sjtr (m + 1)) w₀).2).drop (m + 2 - 1) =
          [x] from by
        rw [hiw, show m + 2 - 1 = m + 1 from rfl]
        exact drop_of_length_append _ [x] _ hWlenj] at hsh
      have hout : (sjtrStep (sjtrRun j (sjtr (m + 1)) w₀).1
          (sjtrRun j (sjtr (m + 1)) w₀).2).1 = true := hsub.outTrue j hjM
      rw [hout] at hsh
      have hsb := sjtrRun_succ_back j (sjtr (m + 1)) w₀
      obtain ⟨i₂, hi₂, he⟩ := hsub.effect (j + 1) (by omega) (by omega)
      rw [Nat.add_sub_cancel] at he
      rw [hsb] at he
      have he' : (sjtrStep (sjtrRun j (sjtr (m + 1)) w₀).1
          (sjtrRun j (sjtr (m + 1)) w₀).2).2.2 =
          swapPos (sjtrRun j (sjtr (m + 1)) w₀).2 i₂ (i₂ + 1) := he
      constructor
      · rw [sjtrOut, hS, hL, hsh]
      · refine ⟨i₂, by omega, ?_⟩
        rw [hL2, hS, hL, hsh]
        rw [he', hiw]
        rw [swapPos_append_left _ [x] i₂ (i₂ + 1) (by rw [hWlenj]; omega)
          (by rw [hWlenj]; omega)]

/-- The terminal invocation `n! + 1` of `sjtr (m+2)`: it reports `false`, the
slice is back in its original order, the compensating swap of the `i = 0`
branch (or the sub-generator's own terminal swap) is one adjacent swap, and
the generator is dead afterwards. -/
theorem sjtr_terminal (m : Nat) (w₀ : List Int) (hw₀ : w₀.length = m + 1)
    (hsub : SjtrSpecH (m + 1) w₀) (x : Int) :
    sjtrOut (Nat.factorial (m + 2)) (sjtr (m + 2)) (insertAt (m + 1) x w₀) = false ∧
    (sjtrRun (Nat.factorial (m + 2) + 1) (sjtr (m + 2))
        (insertAt (m + 1) x w₀)).2 = insertAt (m + 1) x w₀ ∧
    SjtrDead (sjtrRun (Nat.factorial (m + 2) + 1) (sjtr (m + 2))
        (insertAt (m + 1) x w₀)).1 ∧
    ∃ i, i + 1 < m + 2 ∧
      (sjtrRun (Nat.factorial (m + 2) + 1) (sjtr (m + 2))
          (insertAt (m + 1) x w₀)).2 =
        swapPos ((sjtrRun (Nat.factorial (m + 2)) (sjtr (m + 2))
          (insertAt (m + 1) x w₀)).2) i (i + 1) := by
  by_cases hpar : Nat.factorial (m + 1) % 2 = 1
  · -- an odd number of blocks forces `m = 0`: check the three invocations
    have hm0 : m = 0 := by
      by_contra hm
      have h2 : 2 ∣ Nat.factorial (m + 1) := Nat.dvd_factorial (by omega) (by omega)
      omega
    subst hm0
    obtain ⟨u, hu⟩ : ∃ u, w₀ = [u] := List.length_eq_one.mp hw₀
    subst hu
    exact ⟨rfl, rfl, dead_node 2 1 1 (SjtrState.base false), 0, by omega, rfl⟩
  · -- an even number of blocks: the cycle ends at the high boundary
    have hpar' : Nat.factorial (m + 1) % 2 = 0 := by omega
    have hT : Nat.factorial (m + 2) =
        (Nat.factorial (m + 1) - 1) * (m + 2) + 1 + (m + 1) := by
      have h1 : (Nat.factorial (m + 1) - 1) * (m + 2) =
          Nat.factorial (m + 1) * (m + 2) - (m + 2) := Nat.sub_one_mul _ _
      have h2 : Nat.factorial (m + 1) * (m + 2) = Nat.factorial (m + 2) := by
        rw [Nat.mul_comm]
        rfl
      have h3 : m + 2 ≤ Nat.factorial (m + 1) * (m + 2) :=
        Nat.le_mul_of_pos_left _ (Nat.factorial_pos _)
      omega
    have hmas := sjtr_master_even m w₀ hw₀ hsub x (Nat.factorial (m + 1)) (m + 1)
      (Nat.factorial_pos _) (le_refl _) (by omega) hpar'
    rw [← hT] at hmas
    have hS : (sjtrRun (Nat.factorial (m + 2)) (sjtr (m + 2))
        (insertAt (m + 1) x w₀)).1 =
        SjtrState.node (m + 2) true ((1 + (m + 1) : Nat) : Int) 1
          (sjtrRun (Nat.factorial (m + 1)) (sjtr (m + 1)) w₀).1 := by
      rw [hmas]
    have hL : (sjtrRun (Nat.factorial (m + 2)) (sjtr (m + 2))
        (insertAt (m + 1) x w₀)).2 =
        insertAt (m + 1) x (sjtrRun (Nat.factorial (m + 1)) (sjtr (m + 1)) w₀).2 := by
      rw [hmas]
    rw [show ((1 + (m + 1) : Nat) : Int) = ((m + 2 : Nat) : Int) from by omega] at hS
    have hWlenM : (sjtrRun (Nat.factorial (m + 1)) (sjtr (m + 1)) w₀).2.length =
        m + 1 := by
      rw [sjtrRun_length, hw₀]
    have hiw : insertAt (m + 1) x (sjtrRun (Nat.factorial (m + 1)) (sjtr (m + 1))
        w₀).2 = (sjtrRun (Nat.factorial (m + 1)) (sjtr (m + 1)) w₀).2 ++ [x] :=
      insertAt_of_length x _ _ hWlenM
    have hsh := step_high (m + 2) 1
      (sjtrRun (Nat.factorial (m + 1)) (sjtr (m + 1)) w₀).1
      (insertAt (m + 1) x (sjtrRun (Nat.factorial (m + 1)) (sjtr (m + 1)) w₀).2)
    rw [show (insertAt (m + 1) x (sjtrRun (Nat.factorial (m + 1)) (sjtr (m + 1))
        w₀).2).take (m + 2 - 1) =
        (sjtrRun (Nat.factorial (m + 1)) (sjtr (m + 1)) w₀).2 from by
      rw [hiw, show m + 2 - 1 = m + 1 from rfl]
      exact take_of_length_append _ [x] _ hWlenM] at hsh
    rw [show (insertAt (m + 1) x (sjtrRun (Nat.factorial (m + 1)) (sjtr (m + 1))
        w₀).2).drop (m + 2 - 1) = [x] from by
      rw [hiw, show m + 2 - 1 = m + 1 from rfl]
      exact drop_of_length_append _ [x] _ hWlenM] at hsh
    have hout : (sjtrStep (sjtrRun (Nat.factorial (m + 1)) (sjtr (m + 1)) w₀).1
        (sjtrRun (Nat.factorial (m + 1)) (sjtr (m + 1)) w₀).2).1 = false :=
      hsub.outFalse (Nat.factorial (m + 1)) (le_refl _)
    rw [hout] at hsh
    have hsucc := sjtrRun_succ_back (Nat.factorial (m + 2)) (sjtr (m + 2))
      (insertAt (m + 1) x w₀)
    have hsb := sjtrRun_succ_back (Nat.factorial (m + 1)) (sjtr (m + 1)) w₀
    have hrest : (sjtrStep (sjtrRun (Nat.factorial (m + 1)) (sjtr (m + 1)) w₀).1
        (sjtrRun (Nat.factorial (m + 1)) (sjtr (m + 1)) w₀).2).2.2 = w₀ := by
      have h := hsub.restored
      rw [hsb] at h
      exact h
    have hL2 : (sjtrRun (Nat.factorial (m + 2) + 1) (sjtr (m + 2))
        (insertAt (m + 1) x w₀)).2 =
        (sjtrStep (sjtrRun (Nat.factorial (m + 2)) (sjtr (m + 2))
            (insertAt (m + 1) x w₀)).1
          (sjtrRun (Nat.factorial (m + 2)) (sjtr (m + 2))
            (insertAt (m + 1) x w₀)).2).2.2 := by
      rw [hsucc]
    have hS2 : (sjtrRun (Nat.factorial (m + 2) + 1) (sjtr (m + 2))
        (insertAt (m + 1) x w₀)).1 =
        (sjtrStep (sjtrRun (Nat.factorial (m + 2)) (sjtr (m + 2))
            (insertAt (m + 1) x w₀)).1
          (sjtrRun (Nat.factorial (m + 2)) (sjtr (m + 2))
            (insertAt (m + 1) x w₀)).2).2.1 := by
      rw [hsucc]
    refine ⟨?_, ?_, ?_, ?_⟩
    · rw [sjtrOut, hS, hL, hsh]
    · rw [hL2, hS, hL, hsh, hrest]
      rw [insertAt_of_length x w₀ _ hw₀]
    · rw [hS2, hS, hL, hsh]
      exact dead_node _ _ _ _
    · -- the sub-generator's own terminal swap, lifted over the appended `x`
      have hm1 : 1 ≤ m := by
        rcases Nat.eq_zero_or_pos m with h0 | h1
        · subst h0
          exact absurd hpar' (by decide)
        · omega
      obtain ⟨i₂, hi₂, he⟩ := hsub.terminal2 (by omega)
      rw [hsb] at he
      have he' : (sjtrStep (sjtrRun (Nat.factorial (m + 1)) (sjtr (m + 1)) w₀).1
          (sjtrRun (Nat.factorial (m + 1)) (sjtr (m + 1)) w₀).2).2.2 =
          swapPos (sjtrRun (Nat.factorial (m + 1)) (sjtr (m + 1)) w₀).2
            i₂ (i₂ + 1) := he
      refine ⟨i₂, by omega, ?_⟩
      rw [hL2, hS, hL, hsh]
      rw [he', hiw]
      rw [swapPos_append_left _ [x] i₂ (i₂ + 1) (by rw [hWlenM]; omega)
        (by rw [hWlenM]; omega)]

/-- The induction step: the full behaviour of `sjtr (m+2)` on a slice of
length `m + 2`, given the behaviour of the size-`m+1` sub-generator. -/
theorem sjtrSpecH_step (m : Nat) (w₀ : List Int) (hw₀ : w₀.length = m + 1)
    (hsub : SjtrSpecH (m + 1) w₀) (x : Int) :
    SjtrSpecH (m + 2) (insertAt (m + 1) x w₀) := by
  have hbound : ∀ j t, 1 ≤ j → t = (j - 1) * (m + 2) + 1 + (m + 1) →
      t < Nat.factorial (m + 2) → j < Nat.factorial (m + 1) := by
    intro j t hj hteq hlt
    by_contra hge
    have h1 : (Nat.factorial (m + 1) - 1) * (m + 2) ≤ (j - 1) * (m + 2) :=
      Nat.mul_le_mul_right _ (by omega)
    have h2 : (Nat.factorial (m + 1) - 1) * (m + 2) =
        Nat.factorial (m + 1) * (m + 2) - (m + 2) := Nat.sub_one_mul _ _
    have h3 : Nat.factorial (m + 1) * (m + 2) = Nat.factorial (m + 2) := by
      rw [Nat.mul_comm]
      rfl
    have h4 : m + 2 ≤ Nat.factorial (m + 1) * (m + 2) :=
      Nat.le_mul_of_pos_left _ (Nat.factorial_pos _)
    omega
  have hdecM : ∀ j c t, 1 ≤ j → c ≤ m + 1 → t = (j - 1) * (m + 2) + 1 + c →
      t ≤ Nat.factorial (m + 2) → j ≤ Nat.factorial (m + 1) := by
    intro j c t hj hc hteq hle
    by_contra hge
    have h1 : Nat.factorial (m + 1) * (m + 2) ≤ (j - 1) * (m + 2) :=
      Nat.mul_le_mul_right _ (by omega)
    have h3 : Nat.factorial (m + 1) * (m + 2) = Nat.factorial (m + 2) := by
      rw [Nat.mul_comm]
      rfl
    omega
  have hdec : ∀ t, 1 ≤ t → ∃ j c, 1 ≤ j ∧ c ≤ m + 1 ∧
      t = (j - 1) * (m + 2) + 1 + c := by
    intro t ht
    obtain ⟨t', rfl⟩ : ∃ t', t = t' + 1 := ⟨t - 1, by omega⟩
    refine ⟨t' / (m + 2) + 1, t' % (m + 2), Nat.le_add_left 1 _, ?_, ?_⟩
    · have h5 : t' % (m + 2) < m + 2 := Nat.mod_lt t' (by omega)
      omega
    · rw [Nat.add_sub_cancel]
      conv_lhs => rw [← Nat.div_add_mod t' (m + 2)]
      ring
  have hterm := sjtr_terminal m w₀ hw₀ hsub x
  refine ⟨?_, ?_, ?_, ?_, ?_, ?_, ?_, ?_⟩
  · -- outTrue
    intro t ht
    rcases Nat.eq_zero_or_pos t with ht0 | ht1
    · subst ht0
      have h0 : sjtrOut 0 (sjtr (m + 2)) (insertAt (m + 1) x w₀) =
          (sjtrStep (sjtr (m + 2)) (insertAt (m + 1) x w₀)).1 := rfl
      rw [h0, show sjtr (m + 2) = SjtrState.node (m + 2) true ((m + 2 : Nat) : Int) 0
        (sjtr (m + 1)) from rfl, step_high]
      rw [show (insertAt (m + 1) x w₀).take (m + 2 - 1) = w₀ from by
        rw [insertAt_of_length x w₀ _ hw₀, show m + 2 - 1 = m + 1 from rfl]
        exact take_of_length_append w₀ [x] _ hw₀]
      exact hsub.outTrue 0 (Nat.factorial_pos _)
    · obtain ⟨j, c, hj1, hc, hteq⟩ := hdec t ht1
      rw [hteq]
      exact (sjtr_call m w₀ hw₀ hsub x j c hj1
        (hdecM j c t hj1 hc hteq (by omega)) hc
        (fun hce => hbound j t hj1 (by rw [hteq, hce]) ht)).1
  · -- outFalse
    intro t ht
    rcases Nat.eq_or_lt_of_le ht with hteq | htgt
    · rw [← hteq]
      exact hterm.1
    · have hsplit : t = (Nat.factorial (m + 2) + 1) +
          (t - Nat.factorial (m + 2) - 1) := by omega
      have hkill : (sjtrStep (sjtrRun (Nat.factorial (m + 2) + 1) (sjtr (m + 2))
          (insertAt (m + 1) x w₀)).1
          (sjtrRun (Nat.factorial (m + 2) + 1) (sjtr (m + 2))
            (insertAt (m + 1) x w₀)).2).1 = false := by
        rw [hterm.2.2.1 _]
      rw [sjtrOut, hsplit, sjtrRun_add]
      rw [dead_run _ hterm.2.2.1]
      exact hkill
  · exact hterm.2.1
  · exact hterm.2.2.1
  · -- first
    have h1 : (sjtrRun 1 (sjtr (m + 2)) (insertAt (m + 1) x w₀)).2 =
        (sjtrStep (sjtr (m + 2)) (insertAt (m + 1) x w₀)).2.2 := rfl
    rw [h1, show sjtr (m + 2) = SjtrState.node (m + 2) true ((m + 2 : Nat) : Int) 0
      (sjtr (m + 1)) from rfl, step_high]
    rw [show (insertAt (m + 1) x w₀).take (m + 2 - 1) = w₀ from by
      rw [insertAt_of_length x w₀ _ hw₀, show m + 2 - 1 = m + 1 from rfl]
      exact take_of_length_append w₀ [x] _ hw₀]
    rw [show (insertAt (m + 1) x w₀).drop (m + 2 - 1) = [x] from by
      rw [insertAt_of_length x w₀ _ hw₀, show m + 2 - 1 = m + 1 from rfl]
      exact drop_of_length_append w₀ [x] _ hw₀]
    have hfirst : (sjtrStep (sjtr (m + 1)) w₀).2.2 = w₀ := hsub.first
    rw [hfirst, insertAt_of_length x w₀ _ hw₀]
  · -- effect
    intro t h2 hN
    obtain ⟨j, c, hj1, hc, hteq⟩ := hdec (t - 1) (by omega)
    have hjM : j ≤ Nat.factorial (m + 1) := hdecM j c (t - 1) hj1 hc hteq (by omega)
    have hcM : c = m + 1 → j < Nat.factorial (m + 1) := fun hce =>
      hbound j (t - 1) hj1 (by rw [hteq, hce]) (by omega)
    obtain ⟨-, i, hi, heq⟩ := sjtr_call m w₀ hw₀ hsub x j c hj1 hjM hc hcM
    refine ⟨i, hi, ?_⟩
    rw [← hteq] at heq
    rw [show (t - 1) + 1 = t from by omega] at heq
    exact heq
  · -- terminal2
    intro _
    exact hterm.2.2.2
  · -- terminal1
    intro h
    omega

/-- The complete behaviour of the recursive plain-changes generator, by
strong induction on the slice length. -/
theorem sjtrSpec_all : ∀ n, SjtrSpec n := by
  intro n
  induction n using Nat.strong_induction_on with
  | _ n ih =>
    rcases n with _ | _ | m
    · exact sjtrSpec_low 0 (by omega)
    · exact sjtrSpec_low 1 (by omega)
    · intro w hw
      have hw' : w = insertAt (m + 1) (w.getD (m + 1) 0) (w.take (m + 1)) := by
        rw [insertAt_of_length _ _ (m + 1) (by rw [List.length_take]; omega)]
        have hnil : w.drop (m + 1 + 1) = [] := by
          have : w.length ≤ m + 1 + 1 := by omega
          exact List.drop_eq_nil_of_le this
        have hdec := decomp_at w (m + 1) (by omega)
        rw [hnil] at hdec
        exact hdec
      rw [hw']
      exact sjtrSpecH_step m (w.take (m + 1)) (by rw [List.length_take]; omega)
        (ih (m + 1) (by omega) (w.take (m + 1)) (by rw [List.length_take]; omega))
        (w.getD (m + 1) 0)

/-! ### `LexNextSort` over `sort.IntSlice` coincides with `LexNextInt` -/

theorem intSlice_not_less (p : List Int) (i j : Nat) :
    ((!(intSlice.less p i j)) = true) ↔ p.getD i 0 ≥ p.getD j 0 := by
  simp [intSlice]

theorem sortFindK_eq (p : List Int) : ∀ m, sortFindK intSlice p m = lexFindK p m := by
  intro m
  induction m with
  | zero =>
    rw [sortFindK, lexFindK]
    by_cases h : p.getD 0 0 ≥ p.getD 1 0
    · rw [if_pos ((intSlice_not_less p 0 1).mpr h), if_pos h]
    · rw [if_neg (fun hc => h ((intSlice_not_less p 0 1).mp hc)), if_neg h]
  | succ m ih =>
    rw [sortFindK, lexFindK]
    by_cases h : p.getD (m + 1) 0 ≥ p.getD (m + 2) 0
    · rw [if_pos ((intSlice_not_less p (m + 1) (m + 2)).mpr h), if_pos h, ih]
    · rw [if_neg (fun hc => h ((intSlice_not_less p (m + 1) (m + 2)).mp hc)), if_neg h]

theorem sortFindL_eq (p : List Int) (k : Nat) :
    ∀ m, sortFindL intSlice p k m = lexFindL p (p.getD k 0) m := by
  intro m
  induction m with
  | zero => rfl
  | succ m ih =>
    rw [sortFindL, lexFindL]
    by_cases h : p.getD k 0 ≥ p.getD (m + 1) 0
    · rw [if_pos ((intSlice_not_less p k (m + 1)).mpr h), if_pos h, ih]
    · rw [if_neg (fun hc => h ((intSlice_not_less p k (m + 1)).mp hc)), if_neg h]

theorem sortRevLoop_eq :
    ∀ (fuel : Nat) (s : List Int) (l r : Nat),
      sortRevLoop intSlice fuel s l r = revLoop fuel s l r := by
  intro fuel
  induction fuel with
  | zero => intro s l r; rfl
  | succ f ih =>
    intro s l r
    rw [sortRevLoop, revLoop]
    by_cases h : l < r
    · rw [if_pos h, if_pos h, ih]
      rfl
    · rw [if_neg h, if_neg h]

/-- C9: over `sort.IntSlice` — comparison by value, swap in place — the
capability-based `LexNextSort` returns the same boolean and leaves the slice in
the same final arrangement as the direct `LexNextInt`: the two specializations
realize one and the same algorithm. -/
theorem claim_C9 (p : List Int) : LexNextSort intSlice p = LexNextInt p := by
  rw [LexNextSort, LexNextInt]
  have hlen : intSlice.len p = p.length := rfl
  rw [hlen]
  by_cases h1 : p.length ≤ 1
  · rw [if_pos h1, if_pos h1]
  · rw [if_neg h1, if_neg h1, sortFindK_eq]
    cases hk : lexFindK p (p.length - 1 - 1) with
    | none => rfl
    | some k =>
      simp only
      rw [sortFindL_eq, sortRevLoop_eq]
      rfl

/-! ### The recursive generator: settling C3 and C6 -/

/-- C3: the iterator returned by `SJTRecursive(p)` returns `true` on exactly
the first `n!` invocations and `false` on every later one; when the first
`false` has been returned, `p` is back in its original order, and every
further invocation returns `false` without changing the generator state or
`p` — the generator is not cyclic.  For `n ∈ {0,1}` this is one `true`
followed by endless `false`. -/
theorem claim_C3 (n : Nat) (p : List Int) (h : p.length = n) :
    (∀ t, t < Nat.factorial n → sjtrOut t (SJTRecursive p) p = true) ∧
    (∀ t, Nat.factorial n ≤ t → sjtrOut t (SJTRecursive p) p = false) ∧
    (sjtrRun (Nat.factorial n + 1) (SJTRecursive p) p).2 = p ∧
    (∀ t, Nat.factorial n + 1 ≤ t →
      sjtrRun t (SJTRecursive p) p =
        ((sjtrRun (Nat.factorial n + 1) (SJTRecursive p) p).1, p)) := by
  subst h
  simp only [SJTRecursive]
  have spec := sjtrSpec_all p.length p rfl
  refine ⟨spec.outTrue, spec.outFalse, spec.restored, ?_⟩
  intro t ht
  have hsplit : t = (Nat.factorial p.length + 1) +
      (t - Nat.factorial p.length - 1) := by omega
  rw [hsplit, sjtrRun_add, dead_run _ spec.dead, spec.restored]

theorem claim_C3_witness :
    ([5, 7] : List Int).length = 2 ∧
    ((∀ t, t < Nat.factorial 2 → sjtrOut t (SJTRecursive [5, 7]) [5, 7] = true) ∧
     (∀ t, Nat.factorial 2 ≤ t → sjtrOut t (SJTRecursive [5, 7]) [5, 7] = false) ∧
     (sjtrRun (Nat.factorial 2 + 1) (SJTRecursive [5, 7]) [5, 7]).2 = [5, 7] ∧
     (∀ t, Nat.factorial 2 + 1 ≤ t →
       sjtrRun t (SJTRecursive [5, 7]) [5, 7] =
         ((sjtrRun (Nat.factorial 2 + 1) (SJTRecursive [5, 7]) [5, 7]).1, [5, 7]))) :=
  ⟨rfl, claim_C3 2 [5, 7] rfl⟩

/-- C6 counterexample: the first successful invocation of
`SJTRecursive([0,1])` returns `true` yet changes nothing — zero positions
change, not an adjacent transposition — and the terminal `false`-returning
invocation (the third, since `2! = 2`) does change the slice, from `[1,0]`
back to `[0,1]`.  Both refute "every successful step is such a transposition;
zero swaps occur only at the terminal, false-returning step". -/
theorem claim_C6_counterexample :
    sjtrOut 0 (SJTRecursive [0, 1]) [0, 1] = true ∧
    (sjtrRun 1 (SJTRecursive [0, 1]) [0, 1]).2 = [0, 1] ∧
    sjtrOut 2 (SJTRecursive [0, 1]) [0, 1] = false ∧
    (sjtrRun 2 (SJTRecursive [0, 1]) [0, 1]).2 = [1, 0] ∧
    (sjtrRun 3 (SJTRecursive [0, 1]) [0, 1]).2 = [0, 1] :=
  ⟨rfl, rfl, rfl, rfl, rfl⟩

/-- C6 — amended: the first successful invocation leaves the slice unchanged;
every later invocation up to the `n!`-th (all successful) swaps exactly one
pair of adjacent positions; for `n ≥ 2` the terminal, `false`-returning
invocation `n! + 1` also swaps one pair of adjacent positions (restoring the
original order), while for `n ≤ 1` it changes nothing. -/
theorem claim_C6 (n : Nat) (p : List Int) (h : p.length = n) :
    (sjtrRun 1 (SJTRecursive p) p).2 = p ∧
    (∀ t, 2 ≤ t → t ≤ Nat.factorial n →
      ∃ j, j + 1 < n ∧
        (sjtrRun t (SJTRecursive p) p).2 =
          swapPos (sjtrRun (t - 1) (SJTRecursive p) p).2 j (j + 1)) ∧
    (2 ≤ n → ∃ j, j + 1 < n ∧
      (sjtrRun (Nat.factorial n + 1) (SJTRecursive p) p).2 =
        swapPos (sjtrRun (Nat.factorial n) (SJTRecursive p) p).2 j (j + 1)) ∧
    (n ≤ 1 → (sjtrRun (Nat.factorial n + 1) (SJTRecursive p) p).2 =
      (sjtrRun (Nat.factorial n) (SJTRecursive p) p).2) := by
  subst h
  simp only [SJTRecursive]
  have spec := sjtrSpec_all p.length p rfl
  exact ⟨spec.first, spec.effect, spec.terminal2, spec.terminal1⟩

theorem claim_C6_witness :
    ([3, 4, 5] : List Int).length = 3 ∧
    ((sjtrRun 1 (SJTRecursive [3, 4, 5]) [3, 4, 5]).2 = [3, 4, 5] ∧
     (∀ t, 2 ≤ t → t ≤ Nat.factorial 3 →
       ∃ j, j + 1 < 3 ∧
         (sjtrRun t (SJTRecursive [3, 4, 5]) [3, 4, 5]).2 =
           swapPos (sjtrRun (t - 1) (SJTRecursive [3, 4, 5]) [3, 4, 5]).2
             j (j + 1)) ∧
     (2 ≤ 3 → ∃ j, j + 1 < 3 ∧
       (sjtrRun (Nat.factorial 3 + 1) (SJTRecursive [3, 4, 5]) [3, 4, 5]).2 =
         swapPos (sjtrRun (Nat.factorial 3) (SJTRecursive [3, 4, 5]) [3, 4, 5]).2
           j (j + 1)) ∧
     (3 ≤ 1 →
       (sjtrRun (Nat.factorial 3 + 1) (SJTRecursive [3, 4, 5]) [3, 4, 5]).2 =
         (sjtrRun (Nat.factorial 3) (SJTRecursive [3, 4, 5]) [3, 4, 5]).2)) :=
  ⟨rfl, claim_C6 3 [3, 4, 5] rfl⟩

/-! ### The iterative generator `SJTE`: settling C4 and C10 -/

/-- C10: the claim promises that every invocation stays within the bounds of
the internal length-`n+2` arrays for every `n ≥ 0` including `n = 0`; in fact
the very first invocation of the `SJTE(0)` step function reaches the `k == 0`
branch and writes `p[2]` while `p` has length `0 + 2 = 2` — an index panic,
modelled as `none`.  The first invocations at `n = 1` and `n = 2` stay in
bounds, isolating the failure to `n = 0`. -/
theorem claim_C10 :
    sjteStep 0 (SJTE 0) = none ∧
    (∃ r, sjteStep 1 (SJTE 1) = some r) ∧
    (∃ r, sjteStep 2 (SJTE 2) = some r) :=
  ⟨rfl, ⟨_, rfl⟩, ⟨_, rfl⟩⟩

end PermGo
